import Mathlib

/-!
# Inference kernel: symbolic algebra rewriter and SAT search core

A shallow embedding of `symbolic_algebra.c` and `sat_solver.c`.

Modelling conventions.

* Heap trees become values of an inductive type; a node owns its children, so
  an in-place update of a node is the function returning the updated tree.
* C arrays become lists; a read outside the array yields the stated default and
  a write outside the array is dropped.
* The numeric payload of a constant is a parameter `α`.  No law is assumed of
  its `+`, `*`, `0`, `1` unless a theorem asks for one, and `==` on payloads is
  decidable equality.
* A loop that the C text does not bound runs on fuel and answers `none` when
  the fuel is used up.
* A step that writes past a fixed buffer of the C text (the eight cells of `wps`
  in the batch loop of the watch scan, the `1 << 12` cells of the decision
  stack) leaves the behaviour of the program undefined; the run has no verdict
  from there on and answers `none` for every fuel.
-/

namespace SymbolicAlgebra

/-- Expression nodes, `struct Expr`: the tag `ExprKind` with the matching
member of the union.  Child pointers are never null, and a name is the string
held in the name buffer. -/
inductive Expr (α : Type) where
  | const (value : α)
  | var (name : String)
  | add (items : List (Expr α))
  | mul (items : List (Expr α))
  | pow (base : Expr α) (exp : Expr α)

variable {α : Type}

/-- The test `e->kind == EXPR_CONST`. -/
def Expr.isConst : Expr α → Bool
  | .const _ => true
  | _ => false

/-- Element-wise sum of the first `n` cells of `a` and `b`, `simd_add4`; the
four-lane loop and the scalar loop write the same cells. -/
def simd_add4 [Add α] (a b : List α) (n : Nat) : List α :=
  List.zipWith (fun x y => x + y) (a.take n) (b.take n)

/-- Element-wise product of the first `n` cells of `a` and `b`, `simd_mul4`. -/
def simd_mul4 [Mul α] (a b : List α) (n : Nat) : List α :=
  List.zipWith (fun x y => x * y) (a.take n) (b.take n)

/-- Pairwise reduction of the constant buffer, `fold_constants_add`: the first
half is added to the second half cell by cell, the halved buffer is summed from
the left starting at `0`, and a leftover last cell is added at the end. -/
def fold_constants_add [Add α] [Zero α] (buf : List α) : α :=
  match buf with
  | [] => 0
  | [x] => x
  | _ =>
    let n := buf.length
    let half := n / 2
    let tmp := simd_add4 buf (buf.drop half) half
    let s := tmp.foldl (fun acc x => acc + x) 0
    if n % 2 ≠ 0 then s + buf.getD (n - 1) 0 else s

/-- Pairwise reduction of the constant buffer, `fold_constants_mul`. -/
def fold_constants_mul [Mul α] [One α] (buf : List α) : α :=
  match buf with
  | [] => 1
  | [x] => x
  | _ =>
    let n := buf.length
    let half := n / 2
    let tmp := simd_mul4 buf (buf.drop half) half
    let p := tmp.foldl (fun acc x => acc * x) 1
    if n % 2 ≠ 0 then p * buf.getD (n - 1) 1 else p

/-- The partition loop of `simplify`: starting from the buffer `buf` and the
compacted front `nonc`, a constant child appends its value to the buffer and any
other child is appended to the front. -/
def partition_items : List (Expr α) → List α → List (Expr α) → List α × List (Expr α)
  | [], buf, nonc => (buf, nonc)
  | .const v :: rest, buf, nonc => partition_items rest (buf ++ [v]) nonc
  | e :: rest, buf, nonc => partition_items rest buf (nonc ++ [e])

/-- The part of `simplify` that follows the simplification of the children of an
`EXPR_ADD` node: partition, fold when `cnt > 0`, and either turn the node into a
constant (`nonc == 0`) or append the folded constant. -/
def rebuild_add [Add α] [Zero α] (items : List (Expr α)) : Expr α :=
  let part := partition_items items [] []
  if part.1.length > 0 then
    let out := fold_constants_add part.1
    if part.2.length = 0 then .const out else .add (part.2 ++ [.const out])
  else .add part.2

/-- The same for an `EXPR_MUL` node. -/
def rebuild_mul [Mul α] [One α] (items : List (Expr α)) : Expr α :=
  let part := partition_items items [] []
  if part.1.length > 0 then
    let out := fold_constants_mul part.1
    if part.2.length = 0 then .const out else .mul (part.2 ++ [.const out])
  else .mul part.2

mutual
/-- Constant folding, `simplify`. -/
def simplify [Add α] [Zero α] [Mul α] [One α] : Expr α → Expr α
  | .const v => .const v
  | .var n => .var n
  | .pow b x => .pow (simplify b) (simplify x)
  | .add items => rebuild_add (simplify_items items)
  | .mul items => rebuild_mul (simplify_items items)
/-- The first loop of the n-ary case of `simplify`: every child is replaced by
its simplification. -/
def simplify_items [Add α] [Zero α] [Mul α] [One α] : List (Expr α) → List (Expr α)
  | [] => []
  | e :: es => simplify e :: simplify_items es
end

/-- Entry point `sa_simplify`. -/
def sa_simplify [Add α] [Zero α] [Mul α] [One α] (e : Expr α) : Expr α := simplify e

mutual
/-- Structural equality, `expr_equal`.  Two pointers to one node denote the same
tree, on which the structural comparison answers the same as the pointer test. -/
def expr_equal [DecidableEq α] : Expr α → Expr α → Bool
  | .const a, .const b => decide (a = b)
  | .var a, .var b => decide (a = b)
  | .pow b1 e1, .pow b2 e2 => expr_equal b1 b2 && expr_equal e1 e2
  | .add xs, .add ys => if xs.length ≠ ys.length then false else expr_equal_items xs ys
  | .mul xs, .mul ys => if xs.length ≠ ys.length then false else expr_equal_items xs ys
  | _, _ => false
/-- The child loop of `expr_equal`, run over the children of the first node. -/
def expr_equal_items [DecidableEq α] : List (Expr α) → List (Expr α) → Bool
  | [], _ => true
  | _ :: _, [] => false
  | x :: xs, y :: ys => if expr_equal x y then expr_equal_items xs ys else false
end

/-- Binding environment `Bindings`: the filled cells of `items`, oldest first. -/
abbrev Bindings (α : Type) := List (String × Expr α)

/-- Appends a binding, `bind_push`. -/
def bind_push (b : Bindings α) (k : String) (v : Expr α) : Bindings α := b ++ [(k, v)]

/-- First binding stored under the key, `bind_get`. -/
def bind_get : Bindings α → String → Option (Expr α)
  | [], _ => none
  | (key, val) :: rest, k => if key = k then some val else bind_get rest k

/-- The capture test `n[0] == '?'` of `match_expr` together with the key `n+1`
it passes on. -/
def capture_key (n : String) : Option String :=
  match n.data with
  | '?' :: rest => some (String.mk rest)
  | _ => none

mutual
/-- Pattern matcher `match_expr` (the C name is a reserved word here, hence
`matchExpr`); the environment is threaded through and
returned with the verdict. -/
def matchExpr [DecidableEq α] : Expr α → Expr α → Bindings α → Bool × Bindings α
  | .var n, term, env =>
    if n = "_" then (true, env)
    else
      match capture_key n with
      | some k =>
        match bind_get env k with
        | some existing => (expr_equal existing term, env)
        | none => (true, bind_push env k term)
      | none =>
        match term with
        | .var m => (decide (n = m), env)
        | _ => (false, env)
  | .const a, term, env =>
    match term with
    | .const b => (decide (a = b), env)
    | _ => (false, env)
  | .pow pb pe, term, env =>
    match term with
    | .pow tb te =>
      let r := matchExpr pb tb env
      if r.1 then matchExpr pe te r.2 else (false, r.2)
    | _ => (false, env)
  | .add ps, term, env =>
    match term with
    | .add ts => if ps.length ≠ ts.length then (false, env) else match_items ps ts env
    | _ => (false, env)
  | .mul ps, term, env =>
    match term with
    | .mul ts => if ps.length ≠ ts.length then (false, env) else match_items ps ts env
    | _ => (false, env)
/-- The child loop of `match_expr`, run over the children of the pattern. -/
def match_items [DecidableEq α] : List (Expr α) → List (Expr α) → Bindings α → Bool × Bindings α
  | [], _, env => (true, env)
  | _ :: _, [], env => (false, env)
  | p :: ps, t :: ts, env =>
    let r := matchExpr p t env
    if r.1 then match_items ps ts r.2 else (false, r.2)
end

/-- Entry point `sa_match`: the environment is emptied, then `match_expr` runs. -/
def sa_match [DecidableEq α] (pattern term : Expr α) : Bool × Bindings α :=
  matchExpr pattern term []

/-- The capture leaf `Var("?name")` of a pattern; `sa_pat_capture` builds it from
a name that fits the name buffer. -/
def capture_leaf (name : String) : Expr α := .var (String.mk ('?' :: name.data))

/-- Pattern leaf built by `sa_pat_any`. -/
def sa_pat_any : Expr α := .var "_"

/-- Payload of a constant node, none for any other node. -/
def Expr.constValue : Expr α → Option α
  | .const v => some v
  | _ => none

mutual
/-- Value of an expression under the assignment `ρ` of its variables, with `+`
and `*` of the payload type; `powf` interprets `Power`, an empty `Sum` is `0`
and an empty `Product` is `1`. -/
def eval [Add α] [Zero α] [Mul α] [One α] (powf : α → α → α) (ρ : String → α) : Expr α → α
  | .const v => v
  | .var n => ρ n
  | .pow b x => powf (eval powf ρ b) (eval powf ρ x)
  | .add items => eval_sum powf ρ items
  | .mul items => eval_prod powf ρ items
/-- Sum of the values of the children. -/
def eval_sum [Add α] [Zero α] [Mul α] [One α] (powf : α → α → α) (ρ : String → α) : List (Expr α) → α
  | [] => 0
  | e :: es => eval powf ρ e + eval_sum powf ρ es
/-- Product of the values of the children. -/
def eval_prod [Add α] [Zero α] [Mul α] [One α] (powf : α → α → α) (ρ : String → α) : List (Expr α) → α
  | [] => 1
  | e :: es => eval powf ρ e * eval_prod powf ρ es
end

/-- Child number `i` of a node: the `i`-th item of a `Sum` or `Product`, the
base (`0`) or the exponent (`1`) of a `Power`. -/
def Expr.child (i : Nat) : Expr α → Option (Expr α)
  | .add items => items.get? i
  | .mul items => items.get? i
  | .pow b x => if i = 0 then some b else if i = 1 then some x else none
  | _ => none

mutual
/-- Substitution of the bindings `env` into a pattern: a capture leaf becomes
the expression bound to its name, a wildcard leaf becomes `t`, the sub-term of
the matched term at the position of the leaf (when there is one); every other
node is kept. -/
def instantiate (env : Bindings α) : Option (Expr α) → Expr α → Expr α
  | t, .var n =>
    if n = "_" then t.getD (.var n)
    else
      match capture_key n with
      | some k => (bind_get env k).getD (.var n)
      | none => .var n
  | _, .const v => .const v
  | t, .pow b x => .pow (instantiate env (t.bind (Expr.child 0)) b) (instantiate env (t.bind (Expr.child 1)) x)
  | t, .add ps => .add (instantiate_items env t 0 ps)
  | t, .mul ps => .mul (instantiate_items env t 0 ps)
/-- Substitution into the children of a node, the first of which has number `i`. -/
def instantiate_items (env : Bindings α) : Option (Expr α) → Nat → List (Expr α) → List (Expr α)
  | _, _, [] => []
  | t, i, p :: ps => instantiate env (t.bind (Expr.child i)) p :: instantiate_items env t (i + 1) ps
end

/-- Accelerator callback, `gpu_add_vec_fn` and `gpu_mul_vec_fn`: from the inputs
`a`, `b`, the contents of `out` before the call and `n`, the returned code and
the contents of `out` after the call. -/
abbrev GpuVecFn (α : Type) := List α → List α → List α → Nat → Int × List α

/-- The two registration slots `GPU_ADD_VEC` and `GPU_MUL_VEC`; `none` is the
null pointer. -/
structure GpuHooks (α : Type) where
  add_vec : Option (GpuVecFn α)
  mul_vec : Option (GpuVecFn α)

/-- Both slots empty, the state at program start. -/
def gpu_hooks_empty : GpuHooks α := { add_vec := none, mul_vec := none }

/-- Stores the callback in the addition slot and returns `0`, `register_gpu_add`. -/
def register_gpu_add (h : GpuHooks α) (fn : Option (GpuVecFn α)) : Int × GpuHooks α :=
  (0, { h with add_vec := fn })

/-- Stores the callback in the product slot and returns `0`, `register_gpu_mul`. -/
def register_gpu_mul (h : GpuHooks α) (fn : Option (GpuVecFn α)) : Int × GpuHooks α :=
  (0, { h with mul_vec := fn })

/-- Vector sum `gpu_add_vec`: with a callback in the slot its result is returned
as it is; otherwise `simd_add4` fills the first `n` cells of `out` and the code
is `0`. -/
def gpu_add_vec [Add α] (h : GpuHooks α) (a b out : List α) (n : Nat) : Int × List α :=
  match h.add_vec with
  | some fn => fn a b out n
  | none => (0, simd_add4 a b n ++ out.drop n)

/-- Vector product `gpu_mul_vec`. -/
def gpu_mul_vec [Mul α] (h : GpuHooks α) (a b out : List α) (n : Nat) : Int × List α :=
  match h.mul_vec with
  | some fn => fn a b out n
  | none => (0, simd_mul4 a b n ++ out.drop n)

mutual
/-- The nodes occurring in an expression tree, the root first. -/
def subterms : Expr α → List (Expr α)
  | .const v => [.const v]
  | .var n => [.var n]
  | .pow b x => .pow b x :: (subterms b ++ subterms x)
  | .add items => .add items :: subterms_items items
  | .mul items => .mul items :: subterms_items items
/-- The nodes occurring in the trees of a list. -/
def subterms_items : List (Expr α) → List (Expr α)
  | [] => []
  | e :: es => subterms e ++ subterms_items es
end

/-- The children of a folded node: at most one of them is a constant, and when
one is, it is the last child and some child is not a constant. -/
def FoldedChildren (items : List (Expr α)) : Prop :=
  (items.filter Expr.isConst).length ≤ 1 ∧
  ((items.filter Expr.isConst).length = 1 →
    (∃ v, items.getLast? = some (.const v)) ∧ ∃ c ∈ items, c.isConst = false)

end SymbolicAlgebra

namespace SatSolver

/-- Clause record `clause_t`: the literals (`size` is their number) and the two
watch positions; the activity score is never read. -/
structure Clause where
  lits : List Int
  w0 : Nat
  w1 : Nat
deriving DecidableEq, Inhabited

/-- Formula record `cnf_formula_t`; `n_clauses` is the length of `clauses`. -/
structure Formula where
  n_vars : Nat
  clauses : List Clause
deriving DecidableEq

/-- Solver record `solver_t`.  The arrays indexed by variable have `n_vars + 1`
cells; a watch list is the list of its `(clause_idx, watch_pos)` pairs; `trail`
holds the `trail_sz` filled cells and `dl_stack` the `dl_top` filled cells.  The
trail buffer grows on demand; the decision stack has the fixed capacity
`dl_stack_cap`.  The constants
`var_decay`, `cls_decay` and `restart_interval` are never read. -/
structure Solver where
  f : Formula
  assign : List Int
  polarity : List Int
  watches_pos : List (List (Nat × Nat))
  watches_neg : List (List (Nat × Nat))
  trail : List Int
  dl_stack : List Nat
  var_act : List ℚ
deriving DecidableEq

/-- Variable of a literal, `lit_var`. -/
def lit_var (l : Int) : Nat := l.natAbs

/-- Opposite literal, `lit_neg`. -/
def lit_neg (l : Int) : Int := -l

/-- Value of a literal under the assignment array, `lit_value`: `1` true,
`-1` false, `0` unassigned. -/
def lit_value (a : List Int) (l : Int) : Int :=
  let v := a.getD (lit_var l) 0
  if l > 0 then v else -v

/-- Assigns a literal, `enqueue_lit`: on an assigned variable the answer is
whether the stored value is the sign of the literal, otherwise the value is
stored and the literal appended to the trail. -/
def enqueue_lit (s : Solver) (l : Int) : Bool × Solver :=
  let v := lit_var l
  let val : Int := if l > 0 then 1 else -1
  let cur := s.assign.getD v 0
  if cur ≠ 0 then (decide (cur = val), s)
  else (true, { s with assign := s.assign.set v val, trail := s.trail ++ [l] })

/-- Outcome of the search for a replacement watch. -/
inductive WatchScan where
  | moved (j : Nat)
  | stay
  | spin
deriving DecidableEq

/-- The inner loop of `watch_scan_update_simd` over the positions `j` of a
clause: the first position other than `w0` and `w1` whose literal is not false.
The counter is a `uint16_t` compared with the 32-bit `size`, so on a clause of
`65536` literals or more without such a position the loop wraps round and never
ends (`spin`). -/
def find_new_watch (a : List Int) (c : Clause) : WatchScan :=
  match (List.range (min c.lits.length 65536)).find?
      (fun j => j ≠ c.w0 && j ≠ c.w1 && lit_value a (c.lits.getD j 0) ≠ -1) with
  | some j => .moved j
  | none => if c.lits.length ≥ 65536 then .spin else .stay

/-- Stores `c` at index `ci` of the clause array. -/
def set_clause (s : Solver) (ci : Nat) (c : Clause) : Solver :=
  { s with f := { s.f with clauses := s.f.clauses.set ci c } }

/-- Body of the scalar loop `for (; i < N; ++i)` of `watch_scan_update_simd` for
one entry `(ci, wp)`.  `some (true, _)` goes on to the next entry,
`some (false, _)` is `return false`, `none` is a body that never ends. -/
def watch_visit (s : Solver) (ci wp : Nat) : Option (Bool × Solver) :=
  let c := s.f.clauses.getD ci default
  let other := if wp = c.w0 then c.w1 else c.w0
  let vwatch := lit_value s.assign (c.lits.getD wp 0)
  if vwatch = 1 then some (true, s)
  else
    match find_new_watch s.assign c with
    | .spin => none
    | .moved j =>
      some (true, set_clause s ci (if wp = c.w0 then { c with w0 := j } else { c with w1 := j }))
    | .stay =>
      let vother := lit_value s.assign (c.lits.getD other 0)
      if vother = -1 then some (false, s)
      else if vother = 0 then
        let r := enqueue_lit s (c.lits.getD other 0)
        if r.1 then some (true, r.2) else some (false, r.2)
      else some (true, s)

/-- The scalar loop `for (; i < N; ++i)` of `watch_scan_update_simd` over the
entries it is left with, in order. -/
def watch_scan_entries : List (Nat × Nat) → Solver → Option (Bool × Solver)
  | [], s => some (true, s)
  | (ci, wp) :: rest, s =>
    match watch_visit s ci wp with
    | none => none
    | some (false, s1) => some (false, s1)
    | some (true, s1) => watch_scan_entries rest s1

/-- The watch list chosen by `watch_scan_update_simd` for the literal
`assigned`: `watches_neg[v]` for a negative literal, `watches_pos[v]` otherwise. -/
def watch_list (s : Solver) (assigned : Int) : List (Nat × Nat) :=
  if assigned < 0 then s.watches_neg.getD (lit_var assigned) []
  else s.watches_pos.getD (lit_var assigned) []

/-- Number of lanes of a batch, `stride`, which is also the number of cells of
the lane buffers `lanes` and `wps`. -/
def stride : Nat := 8

/-- One scan, `watch_scan_update_simd`.  A list of `stride` entries or more
enters the batch loop `while (i + stride <= N)`, whose first step loads 32
bytes from the 16-bit array `watch_pos` and stores 32 bytes into the eight
16-bit cells of `wps`: a write past the buffer, from which the C text defines
no behaviour (`none`).  A shorter list skips the batch loop and is handled by
the scalar loop alone. -/
def watch_scan_update_simd (s : Solver) (assigned : Int) : Option (Bool × Solver) :=
  if stride ≤ (watch_list s assigned).length then none
  else watch_scan_entries (watch_list s assigned) s

/-- The loop of `unit_propagation_simd` from the head position `head`. -/
def unit_propagation_loop : Nat → Nat → Solver → Option (Bool × Solver)
  | 0, _, _ => none
  | fuel + 1, head, s =>
    if head < s.trail.length then
      match watch_scan_update_simd s (s.trail.getD head 0) with
      | none => none
      | some (false, s1) => some (false, s1)
      | some (true, s1) => unit_propagation_loop fuel (head + 1) s1
    else some (true, s)

/-- Propagation over the whole trail, `unit_propagation_simd`. -/
def unit_propagation_simd (fuel : Nat) (s : Solver) : Option (Bool × Solver) :=
  unit_propagation_loop fuel 0 s

/-- Branching variable, `pick_branch_var`: the scan over `1..n_vars` keeping the
first unassigned variable whose activity exceeds the best so far (`-1` at the
start); `0` when none is kept. -/
def pick_branch_var (s : Solver) : Nat :=
  ((List.range s.f.n_vars).foldl
    (fun (acc : Nat × ℚ) i =>
      if s.assign.getD (i + 1) 0 = 0 ∧ s.var_act.getD (i + 1) 0 > acc.2
      then (i + 1, s.var_act.getD (i + 1) 0) else acc)
    (0, -1)).1

/-- One turn of the rewinding loop: the last trail literal is dropped and its
variable cleared. -/
def pop_trail (s : Solver) : Solver :=
  { s with
    trail := s.trail.dropLast
    assign := s.assign.set (lit_var (s.trail.getD (s.trail.length - 1) 0)) 0 }

/-- The given number of turns of the rewinding loop. -/
def pop_trail_times : Nat → Solver → Solver
  | 0, s => s
  | n + 1, s => pop_trail_times n (pop_trail s)

/-- The rewinding loop `while (trail_sz > back)` of `cdcl_solve` and
`dpll_solve`; it makes `trail_sz - back` turns. -/
def rewind_trail (back : Nat) (s : Solver) : Solver :=
  pop_trail_times (s.trail.length - back) s

/-- The branching literal: the variable itself when its polarity cell is not
negative, its negation otherwise. -/
def branch_lit (s : Solver) (v : Nat) : Int :=
  if s.polarity.getD v 0 ≥ 0 then (v : Int) else -(v : Int)

/-- Number of cells of the decision stack, `calloc(1 << 12, ...)`. -/
def dl_stack_cap : Nat := 4096

/-- The `for (;;)` loop of `cdcl_solve`; `pfuel` is the fuel handed to each
propagation.  The push `dl_stack[dl_top++] = trail_sz` is not guarded: with
`dl_top` at the capacity it writes past the buffer, from which the C text
defines no behaviour (`none`). -/
def cdcl_loop (pfuel : Nat) : Nat → Solver → Option (Bool × Solver)
  | 0, _ => none
  | fuel + 1, s =>
    let v := pick_branch_var s
    if v = 0 then some (true, s)
    else if dl_stack_cap ≤ s.dl_stack.length then none
    else
      let l := branch_lit s v
      let r := enqueue_lit { s with dl_stack := s.dl_stack ++ [s.trail.length] } l
      if r.1 then
        match unit_propagation_simd pfuel r.2 with
        | none => none
        | some (true, s2) => cdcl_loop pfuel fuel s2
        | some (false, s2) =>
          if s2.dl_stack.length = 0 then some (false, s2)
          else
            let back := s2.dl_stack.getD (s2.dl_stack.length - 1) 0
            let s4 := rewind_trail back { s2 with dl_stack := s2.dl_stack.dropLast }
            let r2 := enqueue_lit s4 (-l)
            if r2.1 then
              match unit_propagation_simd pfuel r2.2 with
              | none => none
              | some (false, s5) => some (false, s5)
              | some (true, s5) => cdcl_loop pfuel fuel s5
            else some (false, r2.2)
      else some (false, r.2)

/-- The flat search `cdcl_solve`. -/
def cdcl_solve (fuel : Nat) (s : Solver) : Option (Bool × Solver) :=
  match unit_propagation_simd fuel s with
  | none => none
  | some (false, s1) => some (false, s1)
  | some (true, s1) => cdcl_loop fuel fuel s1

/-- The recursive search `dpll_solve`, with `fuel` bounding the call depth and
`pfuel` handed to each propagation. -/
def dpll_rec (pfuel : Nat) : Nat → Solver → Option (Bool × Solver)
  | 0, _ => none
  | fuel + 1, s =>
    match unit_propagation_simd pfuel s with
    | none => none
    | some (false, s1) => some (false, s1)
    | some (true, s1) =>
      let v := pick_branch_var s1
      if v = 0 then some (true, s1)
      else
        let l := branch_lit s1 v
        let save := s1.trail.length
        let r := enqueue_lit s1 l
        let first : Option (Bool × Solver) :=
          if r.1 then
            match unit_propagation_simd pfuel r.2 with
            | none => none
            | some (false, s2) => some (false, s2)
            | some (true, s2) => dpll_rec pfuel fuel s2
          else some (false, r.2)
        match first with
        | none => none
        | some (true, s3) => some (true, s3)
        | some (false, s3) =>
          let r2 := enqueue_lit (rewind_trail save s3) (-l)
          let second : Option (Bool × Solver) :=
            if r2.1 then
              match unit_propagation_simd pfuel r2.2 with
              | none => none
              | some (false, s5) => some (false, s5)
              | some (true, s5) => dpll_rec pfuel fuel s5
            else some (false, r2.2)
          match second with
          | none => none
          | some (true, s6) => some (true, s6)
          | some (false, s6) => some (false, rewind_trail save s6)

/-- The recursive search `dpll_solve`. -/
def dpll_solve (fuel : Nat) (s : Solver) : Option (Bool × Solver) :=
  dpll_rec fuel fuel s

/-- Clause as `parse_dimacs` stores it: `w0 = 0` and `w1 = 1` when there is more
than one literal, `w1 = 0` otherwise. -/
def parse_clause (lits : List Int) : Clause :=
  { lits := lits, w0 := 0, w1 := if lits.length > 1 then 1 else 0 }

/-- Formula as `parse_dimacs` stores it. -/
def parse_formula (n_vars : Nat) (cls : List (List Int)) : Formula :=
  { n_vars := n_vars, clauses := cls.map parse_clause }

/-- The solver record as `solve_cnf_dimacs` sets it up before its clause loop:
zeroed arrays, polarity cells filled with `1`, empty trail and stack. -/
def solver_new (f : Formula) : Solver :=
  { f := f
    assign := List.replicate (f.n_vars + 1) 0
    polarity := List.replicate (f.n_vars + 1) 1
    watches_pos := List.replicate (f.n_vars + 1) []
    watches_neg := List.replicate (f.n_vars + 1) []
    trail := []
    dl_stack := []
    var_act := List.replicate (f.n_vars + 1) 0 }

/-- Appends the entry `(ci, wi)` to the watch list of the literal `l`. -/
def watch_push (s : Solver) (ci wi : Nat) (l : Int) : Solver :=
  if l > 0 then
    { s with watches_pos :=
        s.watches_pos.set (lit_var l) (s.watches_pos.getD (lit_var l) [] ++ [(ci, wi)]) }
  else
    { s with watches_neg :=
        s.watches_neg.set (lit_var l) (s.watches_neg.getD (lit_var l) [] ++ [(ci, wi)]) }

/-- Body of the clause loop of `solve_cnf_dimacs` for clause `ci`; `none` is
`return false`. -/
def init_clause (s : Solver) (ci : Nat) (c : Clause) : Option Solver :=
  if c.lits.length = 0 then none
  else
    let r := if c.lits.length = 1 then enqueue_lit s (c.lits.getD 0 0) else (true, s)
    if r.1 then
      some ((List.range (min c.lits.length 2)).foldl
        (fun st wi => watch_push st ci wi (c.lits.getD wi 0)) r.2)
    else none

/-- The clause loop of `solve_cnf_dimacs` over the clauses from index `ci` on;
`none` is `return false`. -/
def init_watches : List Clause → Nat → Solver → Option Solver
  | [], _, s => some s
  | c :: rest, ci, s =>
    match init_clause s ci c with
    | none => none
    | some s1 => init_watches rest (ci + 1) s1

/-- The solver state on which `solve_cnf_dimacs` calls `cdcl_solve`, when its
clause loop does not return `false`. -/
def solver_init (f : Formula) : Option Solver :=
  init_watches f.clauses 0 (solver_new f)

/-- Public entry `solve_cnf_dimacs` on the parsed formula: `some b` is the
returned verdict. -/
def solve_cnf_dimacs (fuel : Nat) (f : Formula) : Option Bool :=
  match solver_init f with
  | none => some false
  | some s => (cdcl_solve fuel s).map Prod.fst

/-- A literal of the formula: non-zero, its variable in `1..n_vars`. -/
def IsLit (f : Formula) (l : Int) : Prop := l ≠ 0 ∧ lit_var l ≤ f.n_vars

/-- Every literal of every clause is a literal of the formula. -/
def WellFormed (f : Formula) : Prop := ∀ c ∈ f.clauses, ∀ l ∈ c.lits, IsLit f l

/-- The literal `l` is true under the truth assignment `σ`. -/
def lit_true (σ : Nat → Bool) (l : Int) : Prop :=
  (l > 0 ∧ σ (lit_var l) = true) ∨ (l < 0 ∧ σ (lit_var l) = false)

/-- Some truth assignment makes a literal of every clause true. -/
def Satisfiable (f : Formula) : Prop :=
  ∃ σ : Nat → Bool, ∀ c ∈ f.clauses, ∃ l ∈ c.lits, lit_true σ l


instance (f : Formula) (l : Int) : Decidable (IsLit f l) :=
  inferInstanceAs (Decidable (l ≠ 0 ∧ lit_var l ≤ f.n_vars))

instance (f : Formula) : Decidable (WellFormed f) :=
  inferInstanceAs (Decidable (∀ c ∈ f.clauses, ∀ l ∈ c.lits, IsLit f l))

/-- Number of variables in `1..n_vars` whose cell of the assignment array is `0`. -/
def unassigned_count (s : Solver) : Nat :=
  (List.range s.f.n_vars).countP (fun i => decide (s.assign.getD (i + 1) 0 = 0))

/-- The literal read through a watch-list entry `(clause_idx, watch_pos)`. -/
def entry_lit (s : Solver) (e : Nat × Nat) : Int :=
  (s.f.clauses.getD e.1 default).lits.getD e.2 0

/-- The state kept by the clause loop, by `enqueue_lit` on an unassigned
variable and by the search: every trail literal is true, every watch-list entry
points at the literal its list is keyed by, and the trail holds as many
literals as there are assigned variables. -/
structure Settled (s : Solver) : Prop where
  len : s.assign.length = s.f.n_vars + 1
  trail_true : ∀ l ∈ s.trail, lit_value s.assign l = 1
  watch_pos : ∀ v, ∀ e ∈ s.watches_pos.getD v [], entry_lit s e = (v : Int)
  watch_neg : ∀ v, ∀ e ∈ s.watches_neg.getD v [], entry_lit s e = -(v : Int)
  count : s.trail.length + unassigned_count s = s.f.n_vars

/-- A clause list that stops the clause loop: it holds an empty clause, or a
unit clause whose literal is already false, or two complementary unit clauses. -/
def Blocked (cls : List Clause) (s : Solver) : Prop :=
  (∃ c ∈ cls, c.lits = []) ∨
  (∃ l, IsLit s.f l ∧ (∃ c ∈ cls, c.lits = [l]) ∧ lit_value s.assign l = -1) ∨
  (∃ l, IsLit s.f l ∧ (∃ c ∈ cls, c.lits = [l]) ∧ (∃ c ∈ cls, c.lits = [-l]))

/-- What one turn of the `for (;;)` loop of `cdcl_solve` comes to: `ret b s` is
`return b`, `next s` is the start of the next turn, `stuck` is a propagation
without a result (out of fuel, or undefined), `fault` is a push past the last
cell of the decision stack. -/
inductive Turn where
  | ret (b : Bool) (s : Solver)
  | next (s : Solver)
  | stuck
  | fault
deriving DecidableEq

/-- The body of the `for (;;)` loop of `cdcl_solve`, one turn. -/
def cdcl_iteration (pfuel : Nat) (s : Solver) : Turn :=
  let v := pick_branch_var s
  if v = 0 then .ret true s
  else if dl_stack_cap ≤ s.dl_stack.length then .fault
  else
    let l := branch_lit s v
    let r := enqueue_lit { s with dl_stack := s.dl_stack ++ [s.trail.length] } l
    if r.1 then
      match unit_propagation_simd pfuel r.2 with
      | none => .stuck
      | some (true, s2) => .next s2
      | some (false, s2) =>
        if s2.dl_stack.length = 0 then .ret false s2
        else
          let back := s2.dl_stack.getD (s2.dl_stack.length - 1) 0
          let s4 := rewind_trail back { s2 with dl_stack := s2.dl_stack.dropLast }
          let r2 := enqueue_lit s4 (-l)
          if r2.1 then
            match unit_propagation_simd pfuel r2.2 with
            | none => .stuck
            | some (false, s5) => .ret false s5
            | some (true, s5) => .next s5
          else .ret false r2.2
    else .ret false r.2

/-- The quiescence condition of a clause under the assignment `a`, `conflict`
telling whether the propagator reported a conflict: some literal is true, or
both watched literals are false and a conflict was reported, or one of the two
watched literals is unassigned. -/
def quiescent (a : List Int) (conflict : Bool) (c : Clause) : Bool :=
  c.lits.any (fun l => decide (lit_value a l = 1)) ||
  (decide (lit_value a (c.lits.getD c.w0 0) = -1) &&
    decide (lit_value a (c.lits.getD c.w1 0) = -1) && conflict) ||
  (decide (lit_value a (c.lits.getD c.w0 0) = 0) ||
    decide (lit_value a (c.lits.getD c.w1 0) = 0))

/-- Trail and assignment agree: every trail literal is true, the variables on
the trail are pairwise distinct, every assigned variable is on the trail. -/
structure Consistent (s : Solver) : Prop where
  trail_true : ∀ l ∈ s.trail, lit_value s.assign l = 1
  distinct : (s.trail.map lit_var).Nodup
  on_trail : ∀ v, s.assign.getD v 0 ≠ 0 → v ∈ s.trail.map lit_var

/-- A sequence of `enqueue_lit` calls, the verdicts dropped. -/
def enqueue_all : List Int → Solver → Solver
  | [], s => s
  | l :: ls, s => enqueue_all ls (enqueue_lit s l).2

/-- No two unit clauses of the formula carry complementary literals. -/
def NoComplementaryUnits (f : Formula) : Prop :=
  ¬ ∃ l, (∃ c ∈ f.clauses, c.lits = [l]) ∧ (∃ c ∈ f.clauses, c.lits = [-l])

/-- Every cell of the assignment array is `0`, or `1` with the unit clause `(v)`
in the formula, or `-1` with the unit clause `(-v)` in the formula: the
assignment as the clause loop of the entry point builds it. -/
def UnitBacked (f : Formula) (a : List Int) : Prop :=
  ∀ v : Nat, a.getD v 0 = 0 ∨
    (a.getD v 0 = 1 ∧ ∃ c ∈ f.clauses, c.lits = [(v : Int)]) ∨
    (a.getD v 0 = -1 ∧ ∃ c ∈ f.clauses, c.lits = [-(v : Int)])

/-- Every watch list has fewer than `stride` entries, so that no scan enters
the batch loop. -/
def ShortLists (s : Solver) : Prop := ∀ l : Int, (watch_list s l).length < stride

/-- A satisfiable formula over nine variables in which the literal `1` opens
eight clauses: `(1 2) (1 3) (1 4) (1 5) (1 6) (1 7) (1 8) (1 9)`. -/
def formula_eight_watchers : Formula :=
  parse_formula 9 [[1, 2], [1, 3], [1, 4], [1, 5], [1, 6], [1, 7], [1, 8], [1, 9]]

/-- The state on which the entry point starts the search for
`formula_eight_watchers`: the list of the literal `1` holds eight entries. -/
def init_eight_watchers : Solver :=
  { f := formula_eight_watchers
    assign := [0, 0, 0, 0, 0, 0, 0, 0, 0, 0]
    polarity := [1, 1, 1, 1, 1, 1, 1, 1, 1, 1]
    watches_pos := [[], [(0, 0), (1, 0), (2, 0), (3, 0), (4, 0), (5, 0), (6, 0), (7, 0)],
      [(0, 1)], [(1, 1)], [(2, 1)], [(3, 1)], [(4, 1)], [(5, 1)], [(6, 1)], [(7, 1)]]
    watches_neg := [[], [], [], [], [], [], [], [], [], []]
    trail := []
    dl_stack := []
    var_act := [0, 0, 0, 0, 0, 0, 0, 0, 0, 0] }

/-- The state of the search on `formula_eight_watchers` after its first
decision, the literal `1`, has been pushed and enqueued. -/
def state_eight_watchers : Solver :=
  { f := formula_eight_watchers
    assign := [0, 1, 0, 0, 0, 0, 0, 0, 0, 0]
    polarity := [1, 1, 1, 1, 1, 1, 1, 1, 1, 1]
    watches_pos := [[], [(0, 0), (1, 0), (2, 0), (3, 0), (4, 0), (5, 0), (6, 0), (7, 0)],
      [(0, 1)], [(1, 1)], [(2, 1)], [(3, 1)], [(4, 1)], [(5, 1)], [(6, 1)], [(7, 1)]]
    watches_neg := [[], [], [], [], [], [], [], [], [], []]
    trail := [1]
    dl_stack := [0]
    var_act := [0, 0, 0, 0, 0, 0, 0, 0, 0, 0] }

/-- The formula `p cnf 5000 0`: five thousand variables and no clause. -/
def formula_many_vars : Formula := parse_formula 5000 []

end SatSolver

namespace SymbolicAlgebra

variable {α : Type}

/-! ## Constant folding -/

theorem simplify_items_eq_map [Add α] [Zero α] [Mul α] [One α] (l : List (Expr α)) :
    simplify_items l = l.map simplify := by
  induction l with
  | nil => simp [simplify_items]
  | cons e es ih => simp [simplify_items, ih]

theorem partition_items_eq (l : List (Expr α)) (buf : List α) (nonc : List (Expr α)) :
    partition_items l buf nonc =
      (buf ++ l.filterMap Expr.constValue, nonc ++ l.filter (fun e => !e.isConst)) := by
  induction l generalizing buf nonc with
  | nil => simp [partition_items]
  | cons e es ih =>
    cases e <;> simp [partition_items, ih, Expr.constValue, Expr.isConst]

theorem foldl_add_eq_sum [AddCommMonoid α] (l : List α) (a : α) :
    l.foldl (fun acc x => acc + x) a = a + l.sum := by
  induction l generalizing a with
  | nil => simp
  | cons x xs ih => simp [ih, add_assoc]

theorem foldl_mul_eq_prod [CommMonoid α] (l : List α) (a : α) :
    l.foldl (fun acc x => acc * x) a = a * l.prod := by
  induction l generalizing a with
  | nil => simp
  | cons x xs ih => simp [ih, mul_assoc]

theorem sum_zipWith_add [AddCommMonoid α] (l₁ l₂ : List α) (h : l₁.length = l₂.length) :
    (List.zipWith (fun x y => x + y) l₁ l₂).sum = l₁.sum + l₂.sum := by
  induction l₁ generalizing l₂ with
  | nil => cases l₂ <;> simp_all
  | cons x xs ih =>
    cases l₂ with
    | nil => simp at h
    | cons y ys =>
      simp only [List.length_cons, Nat.add_right_cancel_iff] at h
      simp only [List.zipWith_cons_cons, List.sum_cons, ih ys h]
      abel

theorem prod_zipWith_mul [CommMonoid α] (l₁ l₂ : List α) (h : l₁.length = l₂.length) :
    (List.zipWith (fun x y => x * y) l₁ l₂).prod = l₁.prod * l₂.prod := by
  induction l₁ generalizing l₂ with
  | nil => cases l₂ <;> simp_all
  | cons x xs ih =>
    cases l₂ with
    | nil => simp at h
    | cons y ys =>
      simp only [List.length_cons, Nat.add_right_cancel_iff] at h
      simp only [List.zipWith_cons_cons, List.prod_cons, ih ys h]
      rw [mul_mul_mul_comm]

/-- A buffer splits into its first half, the next half and the leftover cell. -/
theorem buf_split (buf : List α) (d : α) :
    buf = buf.take (buf.length / 2) ++ (buf.drop (buf.length / 2)).take (buf.length / 2) ++
      (if buf.length % 2 ≠ 0 then [buf.getD (buf.length - 1) d] else []) := by
  have h2 : buf.length / 2 * 2 + buf.length % 2 = buf.length := Nat.div_add_mod' _ _
  have hlt : buf.length % 2 < 2 := Nat.mod_lt _ (by decide)
  apply List.ext_getElem
  · simp only [List.length_append, List.length_take, List.length_drop]
    split <;> simp <;> omega
  · intro i h₁ h₂
    by_cases hi : i < buf.length / 2
    · rw [List.getElem_append_left (by simp; omega), List.getElem_append_left (by simp; omega)]
      simp
    · by_cases hi2 : i < buf.length / 2 + buf.length / 2
      · rw [List.getElem_append_left (by simp; omega), List.getElem_append_right (by simp; omega)]
        simp only [List.length_take, List.getElem_take, List.getElem_drop]
        congr 1
        omega
      · have hodd : buf.length % 2 ≠ 0 := by omega
        have hi3 : i = buf.length - 1 := by omega
        rw [List.getElem_append_right (by simp; omega)]
        simp only [hodd, ne_eq, not_false_eq_true, if_true, List.getElem_singleton]
        subst hi3
        rw [List.getD_eq_getElem _ _ h₁]

theorem fold_constants_add_eq_sum [AddCommMonoid α] (buf : List α) :
    fold_constants_add buf = buf.sum := by
  match buf with
  | [] => simp [fold_constants_add]
  | [x] => simp [fold_constants_add]
  | x :: y :: r =>
    generalize hb : x :: y :: r = buf
    have hdef : fold_constants_add buf =
        (if buf.length % 2 ≠ 0 then
          (simd_add4 buf (buf.drop (buf.length / 2)) (buf.length / 2)).foldl (fun acc x => acc + x) 0
            + buf.getD (buf.length - 1) 0
         else (simd_add4 buf (buf.drop (buf.length / 2)) (buf.length / 2)).foldl
            (fun acc x => acc + x) 0) := by
      subst hb; rfl
    rw [hdef]
    have hs := buf_split buf (0 : α)
    have hlen : (buf.take (buf.length / 2)).length =
        ((buf.drop (buf.length / 2)).take (buf.length / 2)).length := by
      simp only [List.length_take, List.length_drop]; omega
    have hsum : buf.sum = (buf.take (buf.length / 2)).sum +
        ((buf.drop (buf.length / 2)).take (buf.length / 2)).sum +
        (if buf.length % 2 ≠ 0 then [buf.getD (buf.length - 1) 0] else []).sum := by
      conv_lhs => rw [hs]
      simp only [List.sum_append]
    rw [hsum]
    simp only [simd_add4, foldl_add_eq_sum, zero_add, sum_zipWith_add _ _ hlen]
    split <;> simp

theorem fold_constants_mul_eq_prod [CommMonoid α] (buf : List α) :
    fold_constants_mul buf = buf.prod := by
  match buf with
  | [] => simp [fold_constants_mul]
  | [x] => simp [fold_constants_mul]
  | x :: y :: r =>
    generalize hb : x :: y :: r = buf
    have hdef : fold_constants_mul buf =
        (if buf.length % 2 ≠ 0 then
          (simd_mul4 buf (buf.drop (buf.length / 2)) (buf.length / 2)).foldl (fun acc x => acc * x) 1
            * buf.getD (buf.length - 1) 1
         else (simd_mul4 buf (buf.drop (buf.length / 2)) (buf.length / 2)).foldl
            (fun acc x => acc * x) 1) := by
      subst hb; rfl
    rw [hdef]
    have hs := buf_split buf (1 : α)
    have hlen : (buf.take (buf.length / 2)).length =
        ((buf.drop (buf.length / 2)).take (buf.length / 2)).length := by
      simp only [List.length_take, List.length_drop]; omega
    have hprod : buf.prod = (buf.take (buf.length / 2)).prod *
        ((buf.drop (buf.length / 2)).take (buf.length / 2)).prod *
        (if buf.length % 2 ≠ 0 then [buf.getD (buf.length - 1) 1] else []).prod := by
      conv_lhs => rw [hs]
      simp only [List.prod_append]
    rw [hprod]
    simp only [simd_mul4, foldl_mul_eq_prod, one_mul, prod_zipWith_mul _ _ hlen]
    split <;> simp


theorem rebuild_add_eq [Add α] [Zero α] (L : List (Expr α)) :
    rebuild_add L =
      if 0 < (L.filterMap Expr.constValue).length then
        if (L.filter (fun e => !e.isConst)).length = 0 then
          .const (fold_constants_add (L.filterMap Expr.constValue))
        else .add (L.filter (fun e => !e.isConst) ++
          [.const (fold_constants_add (L.filterMap Expr.constValue))])
      else .add (L.filter (fun e => !e.isConst)) := by
  simp [rebuild_add, partition_items_eq]

theorem rebuild_mul_eq [Mul α] [One α] (L : List (Expr α)) :
    rebuild_mul L =
      if 0 < (L.filterMap Expr.constValue).length then
        if (L.filter (fun e => !e.isConst)).length = 0 then
          .const (fold_constants_mul (L.filterMap Expr.constValue))
        else .mul (L.filter (fun e => !e.isConst) ++
          [.const (fold_constants_mul (L.filterMap Expr.constValue))])
      else .mul (L.filter (fun e => !e.isConst)) := by
  simp [rebuild_mul, partition_items_eq]

theorem constValue_isSome_iff (e : Expr α) : e.constValue.isSome = e.isConst := by
  cases e <;> rfl

theorem filterMap_constValue_eq_nil_iff (L : List (Expr α)) :
    L.filterMap Expr.constValue = [] ↔ ∀ e ∈ L, e.isConst = false := by
  induction L with
  | nil => simp
  | cons e es ih =>
    cases e <;> simp [Expr.constValue, Expr.isConst, List.filterMap_cons, ih]

theorem filter_nonconst_eq_nil_iff (L : List (Expr α)) :
    L.filter (fun e => !e.isConst) = [] ↔ ∀ e ∈ L, e.isConst = true := by
  simp [List.filter_eq_nil_iff]

theorem filter_nonconst_eq_self (L : List (Expr α)) (h : ∀ e ∈ L, e.isConst = false) :
    L.filter (fun e => !e.isConst) = L := by
  rw [List.filter_eq_self]
  intro e he
  simp [h e he]

/-! ## Value of an expression -/

theorem eval_sum_append [AddCommMonoid α] [Mul α] [One α] (powf : α → α → α) (ρ : String → α)
    (l₁ l₂ : List (Expr α)) :
    eval_sum powf ρ (l₁ ++ l₂) = eval_sum powf ρ l₁ + eval_sum powf ρ l₂ := by
  induction l₁ with
  | nil => simp [eval_sum]
  | cons e es ih => simp [eval_sum, ih, add_assoc]

theorem eval_prod_append [Add α] [Zero α] [CommMonoid α] (powf : α → α → α) (ρ : String → α)
    (l₁ l₂ : List (Expr α)) :
    eval_prod powf ρ (l₁ ++ l₂) = eval_prod powf ρ l₁ * eval_prod powf ρ l₂ := by
  induction l₁ with
  | nil => simp [eval_prod]
  | cons e es ih => simp [eval_prod, ih, mul_assoc]

theorem eval_sum_split [AddCommMonoid α] [Mul α] [One α] (powf : α → α → α) (ρ : String → α)
    (L : List (Expr α)) :
    eval_sum powf ρ L =
      eval_sum powf ρ (L.filter (fun e => !e.isConst)) + (L.filterMap Expr.constValue).sum := by
  induction L with
  | nil => simp [eval_sum]
  | cons e es ih =>
    cases e <;> simp [eval_sum, eval, Expr.isConst, Expr.constValue, ih, add_assoc, add_left_comm]

theorem eval_prod_split [Add α] [Zero α] [CommMonoid α] (powf : α → α → α) (ρ : String → α)
    (L : List (Expr α)) :
    eval_prod powf ρ L =
      eval_prod powf ρ (L.filter (fun e => !e.isConst)) * (L.filterMap Expr.constValue).prod := by
  induction L with
  | nil => simp [eval_prod]
  | cons e es ih =>
    cases e <;> simp [eval_prod, eval, Expr.isConst, Expr.constValue, ih, mul_assoc, mul_left_comm]

theorem eval_rebuild_add [CommSemiring α] (powf : α → α → α) (ρ : String → α)
    (L : List (Expr α)) : eval powf ρ (rebuild_add L) = eval_sum powf ρ L := by
  rw [rebuild_add_eq, eval_sum_split powf ρ L, fold_constants_add_eq_sum]
  split
  · split
    · next h =>
      rw [List.length_eq_zero] at h
      simp [h, eval, eval_sum]
    · simp [eval, eval_sum_append, eval_sum]
  · next h =>
    have h0 : L.filterMap Expr.constValue = [] := by
      rw [← List.length_eq_zero]; omega
    simp [h0, eval]

theorem eval_rebuild_mul [CommSemiring α] (powf : α → α → α) (ρ : String → α)
    (L : List (Expr α)) : eval powf ρ (rebuild_mul L) = eval_prod powf ρ L := by
  rw [rebuild_mul_eq, eval_prod_split powf ρ L, fold_constants_mul_eq_prod]
  split
  · split
    · next h =>
      rw [List.length_eq_zero] at h
      simp [h, eval, eval_prod]
    · simp [eval, eval_prod_append, eval_prod]
  · next h =>
    have h0 : L.filterMap Expr.constValue = [] := by
      rw [← List.length_eq_zero]; omega
    simp [h0, eval]

mutual
theorem eval_simplify_aux [CommSemiring α] (powf : α → α → α) (ρ : String → α) :
    ∀ e : Expr α, eval powf ρ (simplify e) = eval powf ρ e
  | .const v => by simp [simplify]
  | .var n => by simp [simplify]
  | .pow b x => by
    simp only [simplify, eval]
    rw [eval_simplify_aux powf ρ b, eval_simplify_aux powf ρ x]
  | .add items => by
    rw [simplify, eval_rebuild_add, eval]
    exact eval_sum_simplify_items powf ρ items
  | .mul items => by
    rw [simplify, eval_rebuild_mul, eval]
    exact eval_prod_simplify_items powf ρ items
theorem eval_sum_simplify_items [CommSemiring α] (powf : α → α → α) (ρ : String → α) :
    ∀ l : List (Expr α), eval_sum powf ρ (simplify_items l) = eval_sum powf ρ l
  | [] => by simp [simplify_items]
  | e :: es => by
    simp only [simplify_items, eval_sum]
    rw [eval_simplify_aux powf ρ e, eval_sum_simplify_items powf ρ es]
theorem eval_prod_simplify_items [CommSemiring α] (powf : α → α → α) (ρ : String → α) :
    ∀ l : List (Expr α), eval_prod powf ρ (simplify_items l) = eval_prod powf ρ l
  | [] => by simp [simplify_items]
  | e :: es => by
    simp only [simplify_items, eval_prod]
    rw [eval_simplify_aux powf ρ e, eval_prod_simplify_items powf ρ es]
end

/-- C2. Constant folding keeps the value: for every expression tree, every
assignment of the variables and every reading of `Power`, the value of
`simplify e` is the value of `e`, with `+` and `*` those of a commutative
semiring (the rationals, the reals), an empty `Sum` being `0` and an empty
`Product` being `1`. -/
theorem simplify_preserves_value [CommSemiring α] (powf : α → α → α) (ρ : String → α)
    (e : Expr α) : eval powf ρ (simplify e) = eval powf ρ e :=
  eval_simplify_aux powf ρ e


/-! ## Idempotence -/

theorem simplify_items_fixed [Add α] [Zero α] [Mul α] [One α] (L : List (Expr α))
    (h : ∀ e ∈ L, simplify e = e) : simplify_items L = L := by
  rw [simplify_items_eq_map]
  induction L with
  | nil => rfl
  | cons x xs ih =>
    rw [List.map_cons, h x (List.mem_cons_self x xs),
      ih (fun e he => h e (List.mem_cons_of_mem x he))]

theorem simplify_rebuild_add [Add α] [Zero α] [Mul α] [One α] (L : List (Expr α))
    (h : ∀ e ∈ L, simplify e = e) : simplify (rebuild_add L) = rebuild_add L := by
  have hnc : ∀ e ∈ L.filter (fun e => !e.isConst), simplify e = e :=
    fun e he => h e (List.mem_of_mem_filter he)
  rw [rebuild_add_eq]
  split
  · split
    · simp [simplify]
    · next hne =>
      have hfix : simplify_items (L.filter (fun e => !e.isConst) ++
          [.const (fold_constants_add (L.filterMap Expr.constValue))]) =
          L.filter (fun e => !e.isConst) ++
          [.const (fold_constants_add (L.filterMap Expr.constValue))] := by
        apply simplify_items_fixed
        intro e he
        rcases List.mem_append.mp he with he | he
        · exact hnc e he
        · rw [List.mem_singleton.mp he]; simp [simplify]
      rw [simplify, hfix, rebuild_add_eq]
      have hc : (L.filter (fun e => !e.isConst) ++
          [Expr.const (fold_constants_add (L.filterMap Expr.constValue))]).filterMap
            Expr.constValue = [fold_constants_add (L.filterMap Expr.constValue)] := by
        rw [List.filterMap_append]
        have : (L.filter (fun e => !e.isConst)).filterMap Expr.constValue = [] := by
          rw [filterMap_constValue_eq_nil_iff]
          intro e he
          have := (List.mem_filter.mp he).2
          simpa using this
        simp [this, Expr.constValue]
      have hn : (L.filter (fun e => !e.isConst) ++
          [Expr.const (fold_constants_add (L.filterMap Expr.constValue))]).filter
            (fun e => !e.isConst) = L.filter (fun e => !e.isConst) := by
        simp [List.filter_append, Expr.isConst]
      rw [hc, hn]
      simp [hne, fold_constants_add]
  · next h0 =>
    have hnil : L.filterMap Expr.constValue = [] := by
      rw [← List.length_eq_zero]; omega
    have hall := (filterMap_constValue_eq_nil_iff L).mp hnil
    rw [filter_nonconst_eq_self L hall, simplify, simplify_items_fixed L h, rebuild_add_eq,
      hnil, filter_nonconst_eq_self L hall]
    simp

theorem simplify_rebuild_mul [Add α] [Zero α] [Mul α] [One α] (L : List (Expr α))
    (h : ∀ e ∈ L, simplify e = e) : simplify (rebuild_mul L) = rebuild_mul L := by
  have hnc : ∀ e ∈ L.filter (fun e => !e.isConst), simplify e = e :=
    fun e he => h e (List.mem_of_mem_filter he)
  rw [rebuild_mul_eq]
  split
  · split
    · simp [simplify]
    · next hne =>
      have hfix : simplify_items (L.filter (fun e => !e.isConst) ++
          [.const (fold_constants_mul (L.filterMap Expr.constValue))]) =
          L.filter (fun e => !e.isConst) ++
          [.const (fold_constants_mul (L.filterMap Expr.constValue))] := by
        apply simplify_items_fixed
        intro e he
        rcases List.mem_append.mp he with he | he
        · exact hnc e he
        · rw [List.mem_singleton.mp he]; simp [simplify]
      rw [simplify, hfix, rebuild_mul_eq]
      have hc : (L.filter (fun e => !e.isConst) ++
          [Expr.const (fold_constants_mul (L.filterMap Expr.constValue))]).filterMap
            Expr.constValue = [fold_constants_mul (L.filterMap Expr.constValue)] := by
        rw [List.filterMap_append]
        have : (L.filter (fun e => !e.isConst)).filterMap Expr.constValue = [] := by
          rw [filterMap_constValue_eq_nil_iff]
          intro e he
          have := (List.mem_filter.mp he).2
          simpa using this
        simp [this, Expr.constValue]
      have hn : (L.filter (fun e => !e.isConst) ++
          [Expr.const (fold_constants_mul (L.filterMap Expr.constValue))]).filter
            (fun e => !e.isConst) = L.filter (fun e => !e.isConst) := by
        simp [List.filter_append, Expr.isConst]
      rw [hc, hn]
      simp [hne, fold_constants_mul]
  · next h0 =>
    have hnil : L.filterMap Expr.constValue = [] := by
      rw [← List.length_eq_zero]; omega
    have hall := (filterMap_constValue_eq_nil_iff L).mp hnil
    rw [filter_nonconst_eq_self L hall, simplify, simplify_items_fixed L h, rebuild_mul_eq,
      hnil, filter_nonconst_eq_self L hall]
    simp

mutual
theorem simplify_simplify_aux [Add α] [Zero α] [Mul α] [One α] :
    ∀ e : Expr α, simplify (simplify e) = simplify e
  | .const v => by simp [simplify]
  | .var n => by simp [simplify]
  | .pow b x => by
    simp only [simplify]
    rw [simplify_simplify_aux b, simplify_simplify_aux x]
  | .add items => by
    rw [simplify]
    exact simplify_rebuild_add _ (simplify_items_all_fixed items)
  | .mul items => by
    rw [simplify]
    exact simplify_rebuild_mul _ (simplify_items_all_fixed items)
theorem simplify_items_all_fixed [Add α] [Zero α] [Mul α] [One α] :
    ∀ l : List (Expr α), ∀ e ∈ simplify_items l, simplify e = e
  | [] => by simp [simplify_items]
  | x :: xs => by
    intro e he
    simp only [simplify_items, List.mem_cons] at he
    rcases he with rfl | he
    · exact simplify_simplify_aux x
    · exact simplify_items_all_fixed xs e he
end

/-- C3. Constant folding is idempotent: for every expression tree `e`,
`simplify (simplify e)` is the same tree as `simplify e`, whatever the
arithmetic of the constants. -/
theorem simplify_idempotent [Add α] [Zero α] [Mul α] [One α] (e : Expr α) :
    simplify (simplify e) = simplify e :=
  simplify_simplify_aux e

/-- C5. A `Sum` (resp. `Product`) node one of whose simplified children is a
constant: when all simplified children are constants the node becomes
`Const total`, otherwise it keeps its kind and its children are the simplified
non-constant children in their order followed by one `Const total`, where
`total` is the sum (resp. product) of the constant children. -/
theorem simplify_folds_constants [CommSemiring α] (items : List (Expr α))
    (h : ∃ c ∈ items.map simplify, c.isConst = true) :
    ((∀ c ∈ items.map simplify, c.isConst = true) →
        simplify (.add items) = .const ((items.map simplify).filterMap Expr.constValue).sum ∧
        simplify (.mul items) = .const ((items.map simplify).filterMap Expr.constValue).prod) ∧
    (¬ (∀ c ∈ items.map simplify, c.isConst = true) →
        simplify (.add items) =
          .add ((items.map simplify).filter (fun c => !c.isConst) ++
            [.const ((items.map simplify).filterMap Expr.constValue).sum]) ∧
        simplify (.mul items) =
          .mul ((items.map simplify).filter (fun c => !c.isConst) ++
            [.const ((items.map simplify).filterMap Expr.constValue).prod])) := by
  have hpos : 0 < ((items.map simplify).filterMap Expr.constValue).length := by
    rw [List.length_pos]
    intro hnil
    obtain ⟨c, hc, hcc⟩ := h
    have := (filterMap_constValue_eq_nil_iff _).mp hnil c hc
    rw [this] at hcc
    exact Bool.noConfusion hcc
  constructor
  · intro hall
    have hnil := (filter_nonconst_eq_nil_iff _).mpr hall
    simp only [simplify, simplify_items_eq_map, rebuild_add_eq, rebuild_mul_eq, hpos, if_true,
      hnil, List.length_nil, fold_constants_add_eq_sum, fold_constants_mul_eq_prod, and_self]
  · intro hall
    have hne : ¬ ((items.map simplify).filter (fun c => !c.isConst)).length = 0 := by
      rw [List.length_eq_zero, filter_nonconst_eq_nil_iff]
      exact hall
    simp only [simplify, simplify_items_eq_map, rebuild_add_eq, rebuild_mul_eq, hpos, if_true,
      hne, if_false, fold_constants_add_eq_sum, fold_constants_mul_eq_prod, and_self]

/-- C5, the two scenarios of the specification: `Sum(Const 1, Const 2, Var x)`
becomes `Sum(Var x, Const 3)` and `Product(Const 2, Const 3, Const 4)` becomes
`Const 24`. -/
theorem simplify_folds_constants_witness :
    (∃ c ∈ [Expr.const (1 : ℤ), .const 2, .var "x"].map simplify, c.isConst = true) ∧
    simplify (Expr.add [.const (1 : ℤ), .const 2, .var "x"]) = .add [.var "x", .const 3] ∧
    (∃ c ∈ [Expr.const (2 : ℤ), .const 3, .const 4].map simplify, c.isConst = true) ∧
    simplify (Expr.mul [.const (2 : ℤ), .const 3, .const 4]) = .const 24 :=
  ⟨⟨.const 1, by simp [simplify], rfl⟩,
   ((simplify_folds_constants [Expr.const (1 : ℤ), .const 2, .var "x"]
      ⟨.const 1, by simp [simplify], rfl⟩).2 (by simp [simplify, Expr.isConst])).1,
   ⟨.const 2, by simp [simplify], rfl⟩,
   ((simplify_folds_constants [Expr.const (2 : ℤ), .const 3, .const 4]
      ⟨.const 2, by simp [simplify], rfl⟩).1 (by simp [simplify, Expr.isConst])).2⟩

/-- C6, as the code has it: a `Sum` node without children and a `Product` node
without children are returned as they are. -/
theorem simplify_empty_node [Add α] [Zero α] [Mul α] [One α] :
    simplify (Expr.add ([] : List (Expr α))) = .add [] ∧
    simplify (Expr.mul ([] : List (Expr α))) = .mul [] :=
  ⟨rfl, rfl⟩

/-- C6 as stated fails: the empty `Sum` is not turned into `Const 0`, nor the
empty `Product` into `Const 1`. -/
theorem empty_node_not_folded :
    simplify (Expr.add ([] : List (Expr ℤ))) ≠ .const 0 ∧
    simplify (Expr.mul ([] : List (Expr ℤ))) ≠ .const 1 :=
  ⟨fun h => Expr.noConfusion h, fun h => Expr.noConfusion h⟩


/-! ## Structural equality -/

mutual
theorem expr_equal_self [DecidableEq α] : ∀ a : Expr α, expr_equal a a = true
  | .const v => by simp [expr_equal]
  | .var n => by simp [expr_equal]
  | .pow b x => by simp [expr_equal, expr_equal_self b, expr_equal_self x]
  | .add xs => by simp [expr_equal, expr_equal_items_self xs]
  | .mul xs => by simp [expr_equal, expr_equal_items_self xs]
theorem expr_equal_items_self [DecidableEq α] :
    ∀ xs : List (Expr α), expr_equal_items xs xs = true
  | [] => by simp [expr_equal_items]
  | x :: xs => by simp [expr_equal_items, expr_equal_self x, expr_equal_items_self xs]
end

mutual
theorem eq_of_expr_equal [DecidableEq α] :
    ∀ a b : Expr α, expr_equal a b = true → a = b
  | .const v, b, h => by
    cases b <;> simp [expr_equal] at h
    rw [h]
  | .var n, b, h => by
    cases b <;> simp [expr_equal] at h
    rw [h]
  | .pow b1 e1, b, h => by
    cases b with
    | pow b2 e2 =>
      simp only [expr_equal, Bool.and_eq_true] at h
      rw [eq_of_expr_equal b1 b2 h.1, eq_of_expr_equal e1 e2 h.2]
    | _ => simp [expr_equal] at h
  | .add xs, b, h => by
    cases b with
    | add ys =>
      simp only [expr_equal, ne_eq, ite_not] at h
      split at h
      · next hl => rw [eq_of_expr_equal_items xs ys hl h]
      · exact Bool.noConfusion h
    | _ => simp [expr_equal] at h
  | .mul xs, b, h => by
    cases b with
    | mul ys =>
      simp only [expr_equal, ne_eq, ite_not] at h
      split at h
      · next hl => rw [eq_of_expr_equal_items xs ys hl h]
      · exact Bool.noConfusion h
    | _ => simp [expr_equal] at h
theorem eq_of_expr_equal_items [DecidableEq α] :
    ∀ xs ys : List (Expr α), xs.length = ys.length → expr_equal_items xs ys = true → xs = ys
  | [], ys, hl, _ => by
    cases ys with
    | nil => rfl
    | cons y ys => simp at hl
  | x :: xs, [], hl, _ => by simp at hl
  | x :: xs, y :: ys, hl, h => by
    simp only [expr_equal_items] at h
    split at h
    · next hx =>
      rw [eq_of_expr_equal x y hx,
        eq_of_expr_equal_items xs ys (by simpa using hl) h]
    · exact Bool.noConfusion h
end

theorem expr_equal_iff_eq [DecidableEq α] (a b : Expr α) : expr_equal a b = true ↔ a = b :=
  ⟨eq_of_expr_equal a b, fun h => h ▸ expr_equal_self a⟩

/-- C8. `expr_equal` is an equivalence relation on expression trees: it is
reflexive, symmetric and transitive. -/
theorem expr_equal_equivalence [DecidableEq α] :
    (∀ a : Expr α, expr_equal a a = true) ∧
    (∀ a b : Expr α, expr_equal a b = true → expr_equal b a = true) ∧
    (∀ a b c : Expr α, expr_equal a b = true → expr_equal b c = true →
      expr_equal a c = true) := by
  refine ⟨expr_equal_self, ?_, ?_⟩
  · intro a b h
    rw [eq_of_expr_equal a b h]
    exact expr_equal_self b
  · intro a b c hab hbc
    rw [eq_of_expr_equal a b hab]
    exact hbc

/-! ## Pattern matching -/

theorem capture_key_capture (a : String) : capture_key (String.mk ('?' :: a.data)) = some a := rfl

theorem capture_ne_wildcard (a : String) : String.mk ('?' :: a.data) ≠ "_" := by
  intro h
  have h2 := congrArg String.data h
  have h3 : ('?' :: a.data).head? = ['_'].head? := congrArg List.head? h2
  simp only [List.head?_cons, Option.some.injEq] at h3
  exact absurd h3 (by decide)

/-- C7. Matching `Sum(?a, ?a)` against `Sum(t1, t2)` from the empty environment
succeeds exactly when `t1` and `t2` are structurally equal, and on success the
environment is the single binding of `a` to `t1`. -/
theorem match_repeated_capture [DecidableEq α] (a : String) (t1 t2 : Expr α) :
    ((sa_match (.add [capture_leaf a, capture_leaf a]) (.add [t1, t2])).1 = true ↔
        expr_equal t1 t2 = true) ∧
    ((sa_match (.add [capture_leaf a, capture_leaf a]) (.add [t1, t2])).1 = true ↔
        t1 = t2) ∧
    ((sa_match (.add [capture_leaf a, capture_leaf a]) (.add [t1, t2])).1 = true →
      (sa_match (.add [capture_leaf a, capture_leaf a]) (.add [t1, t2])).2 = [(a, t1)]) := by
  have hrun : sa_match (.add [capture_leaf a, capture_leaf a]) (.add [t1, t2]) =
      (expr_equal t1 t2, [(a, t1)]) := by
    simp [sa_match, capture_leaf, matchExpr, match_items, capture_ne_wildcard,
      capture_key_capture, bind_get, bind_push]
    cases expr_equal t1 t2 <;> rfl
  rw [hrun]
  exact ⟨Iff.rfl, expr_equal_iff_eq t1 t2, fun _ => rfl⟩


theorem bind_get_append_some (env ext : Bindings α) (k : String) (v : Expr α)
    (h : bind_get env k = some v) : bind_get (env ++ ext) k = some v := by
  induction env with
  | nil => simp [bind_get] at h
  | cons b rest ih =>
    obtain ⟨key, val⟩ := b
    simp only [bind_get, List.cons_append] at h ⊢
    split
    · next hk => simpa [hk] using h
    · next hk => exact ih (by simpa [hk] using h)

theorem bind_get_push_none (env : Bindings α) (k : String) (v : Expr α)
    (h : bind_get env k = none) : bind_get (bind_push env k v) k = some v := by
  induction env with
  | nil => simp [bind_get, bind_push]
  | cons b rest ih =>
    obtain ⟨key, val⟩ := b
    simp only [bind_get] at h
    split at h
    · exact Option.noConfusion h
    · next hk =>
      have := ih h
      simp only [bind_push, List.cons_append, bind_get, hk, if_false] at this ⊢
      exact this

theorem bind_get_mono {env env2 : Bindings α} (hp : env <+: env2) (k : String)
    (v : Expr α) (h : bind_get env k = some v) : bind_get env2 k = some v := by
  obtain ⟨ext, rfl⟩ := hp
  exact bind_get_append_some env ext k v h

mutual
theorem matchExpr_extends [DecidableEq α] :
    ∀ (p t : Expr α) (env : Bindings α), env <+: (matchExpr p t env).2
  | .var n, t, env => by
    simp only [matchExpr]
    split
    · exact List.prefix_refl _
    · split
      · split
        · exact List.prefix_refl _
        · exact List.prefix_append _ _
      · split <;> exact List.prefix_refl _
  | .const a, t, env => by
    simp only [matchExpr]
    split <;> exact List.prefix_refl _
  | .pow pb pe, t, env => by
    cases t with
    | pow tb te =>
      simp only [matchExpr]
      split
      · exact (matchExpr_extends pb tb env).trans (matchExpr_extends pe te _)
      · exact matchExpr_extends pb tb env
    | _ => simp only [matchExpr]; exact List.prefix_refl _
  | .add ps, t, env => by
    cases t with
    | add ts =>
      simp only [matchExpr]
      split
      · exact List.prefix_refl _
      · exact match_items_extends ps ts env
    | _ => simp only [matchExpr]; exact List.prefix_refl _
  | .mul ps, t, env => by
    cases t with
    | mul ts =>
      simp only [matchExpr]
      split
      · exact List.prefix_refl _
      · exact match_items_extends ps ts env
    | _ => simp only [matchExpr]; exact List.prefix_refl _
theorem match_items_extends [DecidableEq α] :
    ∀ (ps ts : List (Expr α)) (env : Bindings α), env <+: (match_items ps ts env).2
  | [], _, env => by simp only [match_items]; exact List.prefix_refl _
  | _ :: _, [], env => by simp only [match_items]; exact List.prefix_refl _
  | p :: ps, t :: ts, env => by
    simp only [match_items]
    split
    · exact (matchExpr_extends p t env).trans (match_items_extends ps ts _)
    · exact matchExpr_extends p t env
end

mutual
theorem matchExpr_sound [DecidableEq α] :
    ∀ (p t : Expr α) (env : Bindings α), (matchExpr p t env).1 = true →
      ∀ env2 : Bindings α, (matchExpr p t env).2 <+: env2 → instantiate env2 (some t) p = t
  | .var n, t, env, h, env2, hp => by
    simp only [matchExpr] at h hp
    simp only [instantiate]
    by_cases hn : n = "_"
    · simp [hn]
    · simp only [hn, if_false] at h hp ⊢
      cases hk : capture_key n with
      | some k =>
        simp only [hk] at h hp ⊢
        cases hex : bind_get env k with
        | some existing =>
          simp only [hex] at h hp
          rw [bind_get_mono hp k existing hex, Option.getD_some]
          exact eq_of_expr_equal existing t h
        | none =>
          simp only [hex] at h hp
          rw [bind_get_mono hp k t (bind_get_push_none env k t hex), Option.getD_some]
      | none =>
        simp only [hk] at h hp ⊢
        cases t with
        | var m =>
          simp only at h
          rw [of_decide_eq_true h]
        | _ => simp at h
  | .const a, t, env, h, env2, hp => by
    simp only [matchExpr] at h
    simp only [instantiate]
    split at h
    · next b => rw [of_decide_eq_true h]
    · exact Bool.noConfusion h
  | .pow pb pe, t, env, h, env2, hp => by
    cases t with
    | pow tb te =>
      simp only [matchExpr] at h hp
      split at h
      · next h1 =>
        simp only [h1, if_true] at hp
        show Expr.pow (instantiate env2 (some tb) pb) (instantiate env2 (some te) pe) = _
        rw [matchExpr_sound pb tb env h1 env2 ((matchExpr_extends pe te _).trans hp),
          matchExpr_sound pe te _ h env2 hp]
      · exact Bool.noConfusion h
    | _ => simp [matchExpr] at h
  | .add ps, t, env, h, env2, hp => by
    cases t with
    | add ts =>
      simp only [matchExpr] at h hp
      split at h
      · exact Bool.noConfusion h
      · next hl =>
        simp only [hl, if_false] at hp
        simp only [instantiate]
        rw [match_items_sound ps ts env (by simpa using hl) h env2 hp (some (.add ts)) 0
          (by intro j; simp [Expr.child])]
    | _ => simp [matchExpr] at h
  | .mul ps, t, env, h, env2, hp => by
    cases t with
    | mul ts =>
      simp only [matchExpr] at h hp
      split at h
      · exact Bool.noConfusion h
      · next hl =>
        simp only [hl, if_false] at hp
        simp only [instantiate]
        rw [match_items_sound ps ts env (by simpa using hl) h env2 hp (some (.mul ts)) 0
          (by intro j; simp [Expr.child])]
    | _ => simp [matchExpr] at h
theorem match_items_sound [DecidableEq α] :
    ∀ (ps ts : List (Expr α)) (env : Bindings α), ps.length = ts.length →
      (match_items ps ts env).1 = true →
      ∀ env2 : Bindings α, (match_items ps ts env).2 <+: env2 →
      ∀ (T : Option (Expr α)) (i : Nat), (∀ j, T.bind (Expr.child (i + j)) = ts.get? j) →
        instantiate_items env2 T i ps = ts
  | [], ts, env, hl, _, env2, _, T, i, _ => by
    cases ts with
    | nil => simp [instantiate_items]
    | cons t ts => simp at hl
  | _ :: _, [], env, hl, _, env2, _, T, i, _ => by simp at hl
  | p :: ps, t :: ts, env, hl, h, env2, hp, T, i, hT => by
    simp only [match_items] at h hp
    split at h
    · next h1 =>
      simp only [h1, if_true] at hp
      simp only [instantiate_items]
      have h0 : T.bind (Expr.child i) = some t := by simpa using hT 0
      rw [h0, matchExpr_sound p t env h1 env2 ((match_items_extends ps ts _).trans hp),
        match_items_sound ps ts _ (by simpa using hl) h env2 hp T (i + 1)
          (by intro j; have := hT (j + 1); simpa [Nat.add_assoc, Nat.add_comm 1 j] using this)]
    · exact Bool.noConfusion h
end

/-- C4. When matching the pattern `p` against the term `t` from the empty
environment succeeds, substituting the resulting bindings for the capture
leaves of `p`, and the sub-term of `t` at the same position for every wildcard
leaf, gives the tree `t`. -/
theorem match_sound [DecidableEq α] (p t : Expr α) (h : (sa_match p t).1 = true) :
    instantiate (sa_match p t).2 (some t) p = t :=
  matchExpr_sound p t [] h (sa_match p t).2 (List.prefix_refl _)

/-- C4 on a pattern with a capture used twice, a wildcard and a literal leaf. -/
theorem match_sound_witness :
    (sa_match (Expr.add [capture_leaf "a", .mul [sa_pat_any, capture_leaf "a"], .const (2 : ℤ)])
      (Expr.add [.var "x", .mul [.pow (.var "y") (.const 3), .var "x"], .const 2])).1 = true ∧
    instantiate
      (sa_match (Expr.add [capture_leaf "a", .mul [sa_pat_any, capture_leaf "a"], .const (2 : ℤ)])
        (Expr.add [.var "x", .mul [.pow (.var "y") (.const 3), .var "x"], .const 2])).2
      (some (Expr.add [.var "x", .mul [.pow (.var "y") (.const 3), .var "x"], .const 2]))
      (Expr.add [capture_leaf "a", .mul [sa_pat_any, capture_leaf "a"], .const (2 : ℤ)]) =
      Expr.add [.var "x", .mul [.pow (.var "y") (.const 3), .var "x"], .const 2] :=
  ⟨by decide, match_sound _ _ (by decide)⟩

/-- C8 on two concrete trees. -/
theorem expr_equal_equivalence_witness :
    expr_equal (Expr.add [.const (1 : ℤ), .var "x"]) (Expr.add [.const (1 : ℤ), .var "x"]) = true ∧
    expr_equal (Expr.add [.const (1 : ℤ), .var "x"]) (Expr.add [.const (1 : ℤ), .var "x"]) = true :=
  ⟨by decide, expr_equal_equivalence.2.1 _ _ (by decide)⟩

/-! ## Accelerator hooks -/

/-- C11, as the code has it: with a callback registered, `gpu_add_vec` (resp.
`gpu_mul_vec`) returns the code and the output of the callback, whatever the
code; the in-core path, code `0` with the element-wise sum (resp. product) in
the first `n` cells, is taken only while the slot is empty. -/
theorem gpu_vec_returns_callback_result [Add α] [Mul α] (h : GpuHooks α) (fn : GpuVecFn α)
    (a b out : List α) (n : Nat) :
    gpu_add_vec (register_gpu_add h (some fn)).2 a b out n = fn a b out n ∧
    gpu_mul_vec (register_gpu_mul h (some fn)).2 a b out n = fn a b out n ∧
    gpu_add_vec (register_gpu_add h none).2 a b out n =
      (0, List.zipWith (fun x y => x + y) (a.take n) (b.take n) ++ out.drop n) ∧
    gpu_mul_vec (register_gpu_mul h none).2 a b out n =
      (0, List.zipWith (fun x y => x * y) (a.take n) (b.take n) ++ out.drop n) :=
  ⟨rfl, rfl, rfl, rfl⟩

/-- C11 as stated fails: a registered callback that answers `1` and writes
nothing makes `gpu_add_vec` on `[1]`, `[2]` answer `1` with the output cell
untouched, not `0` with the sum `3`; the same for `gpu_mul_vec`. -/
theorem gpu_vec_no_fallback :
    gpu_add_vec (register_gpu_add gpu_hooks_empty (some (fun _ _ out _ => (1, out)))).2
      [(1 : ℤ)] [2] [0] 1 = (1, [0]) ∧
    gpu_add_vec (register_gpu_add gpu_hooks_empty (some (fun _ _ out _ => (1, out)))).2
      [(1 : ℤ)] [2] [0] 1 ≠ (0, [3]) ∧
    gpu_mul_vec (register_gpu_mul gpu_hooks_empty (some (fun _ _ out _ => (1, out)))).2
      [(1 : ℤ)] [2] [0] 1 = (1, [0]) ∧
    gpu_mul_vec (register_gpu_mul gpu_hooks_empty (some (fun _ _ out _ => (1, out)))).2
      [(1 : ℤ)] [2] [0] 1 ≠ (0, [2]) := by
  refine ⟨rfl, ?_, rfl, ?_⟩ <;> decide

/-! ## The environment only grows -/

/-- C21. Whatever the pattern, the term and the environment, and whatever the
verdict, the environment left by `match_expr` has the one it was given as a
prefix: every binding present before the call is still there, unchanged, at
the same position. -/
theorem match_keeps_bindings [DecidableEq α] (p t : Expr α) (env : Bindings α) :
    env <+: (matchExpr p t env).2 ∧
    (∀ i, i < env.length → (matchExpr p t env).2.get? i = env.get? i) ∧
    ((matchExpr p t env).1 = false → env <+: (matchExpr p t env).2) := by
  have h := matchExpr_extends p t env
  refine ⟨h, ?_, fun _ => h⟩
  intro i hi
  obtain ⟨ext, hext⟩ := h
  rw [← hext, List.get?_eq_getElem?, List.get?_eq_getElem?, List.getElem?_append_left hi]

/-! ## Shape of a simplified tree -/

theorem mem_subterms_items (n : Expr α) (l : List (Expr α)) :
    n ∈ subterms_items l ↔ ∃ e ∈ l, n ∈ subterms e := by
  induction l with
  | nil => simp [subterms_items]
  | cons x xs ih => simp [subterms_items, ih]

theorem filter_isConst_eq_nil (L : List (Expr α)) (h : ∀ e ∈ L, e.isConst = false) :
    L.filter Expr.isConst = [] := by
  rw [List.filter_eq_nil_iff]
  intro e he
  simp [h e he]

theorem folded_children_of_nonconst (L : List (Expr α)) (h : ∀ e ∈ L, e.isConst = false) :
    FoldedChildren L := by
  unfold FoldedChildren
  rw [filter_isConst_eq_nil L h]
  exact ⟨Nat.zero_le _, fun h0 => absurd h0 (by simp)⟩

theorem folded_children_append_const (F : List (Expr α)) (v : α)
    (h : ∀ e ∈ F, e.isConst = false) (hne : F ≠ []) :
    FoldedChildren (F ++ [.const v]) := by
  unfold FoldedChildren
  have hf : (F ++ [Expr.const v]).filter Expr.isConst = [.const v] := by
    rw [List.filter_append, filter_isConst_eq_nil F h]
    rfl
  rw [hf]
  refine ⟨Nat.le_refl _, fun _ => ⟨⟨v, by simp⟩, ?_⟩⟩
  obtain ⟨c, hc⟩ := List.exists_mem_of_ne_nil F hne
  exact ⟨c, List.mem_append_left _ hc, h c hc⟩

theorem filter_nonconst_all (L : List (Expr α)) :
    ∀ e ∈ L.filter (fun e => !e.isConst), e.isConst = false := by
  intro e he
  have := (List.mem_filter.mp he).2
  simpa using this

/-- The nodes of a rebuilt `Sum` are the new root, whose children are folded,
a constant, or nodes of the children it was built from. -/
theorem subterms_rebuild_add [Add α] [Zero α] (L : List (Expr α)) (n : Expr α)
    (hn : n ∈ subterms (rebuild_add L)) :
    (∃ v, n = .const v) ∨ (∃ items, n = .add items ∧ FoldedChildren items) ∨
      n ∈ subterms_items L := by
  rw [rebuild_add_eq] at hn
  split at hn
  · split at hn
    · left
      simp only [subterms, List.mem_singleton] at hn
      exact ⟨_, hn⟩
    · next hne =>
      simp only [subterms, List.mem_cons] at hn
      rcases hn with hn | hn
      · right; left
        refine ⟨_, hn, folded_children_append_const _ _ (filter_nonconst_all L) ?_⟩
        intro h0
        exact hne (by rw [h0]; rfl)
      · rw [mem_subterms_items] at hn
        obtain ⟨e, he, hne2⟩ := hn
        rcases List.mem_append.mp he with he | he
        · right; right
          rw [mem_subterms_items]
          exact ⟨e, List.mem_of_mem_filter he, hne2⟩
        · left
          rw [List.mem_singleton.mp he] at hne2
          simp only [subterms, List.mem_singleton] at hne2
          exact ⟨_, hne2⟩
  · simp only [subterms, List.mem_cons] at hn
    rcases hn with hn | hn
    · right; left
      exact ⟨_, hn, folded_children_of_nonconst _ (filter_nonconst_all L)⟩
    · right; right
      rw [mem_subterms_items] at hn ⊢
      obtain ⟨e, he, hne2⟩ := hn
      exact ⟨e, List.mem_of_mem_filter he, hne2⟩

/-- The same for a rebuilt `Product`. -/
theorem subterms_rebuild_mul [Mul α] [One α] (L : List (Expr α)) (n : Expr α)
    (hn : n ∈ subterms (rebuild_mul L)) :
    (∃ v, n = .const v) ∨ (∃ items, n = .mul items ∧ FoldedChildren items) ∨
      n ∈ subterms_items L := by
  rw [rebuild_mul_eq] at hn
  split at hn
  · split at hn
    · left
      simp only [subterms, List.mem_singleton] at hn
      exact ⟨_, hn⟩
    · next hne =>
      simp only [subterms, List.mem_cons] at hn
      rcases hn with hn | hn
      · right; left
        refine ⟨_, hn, folded_children_append_const _ _ (filter_nonconst_all L) ?_⟩
        intro h0
        exact hne (by rw [h0]; rfl)
      · rw [mem_subterms_items] at hn
        obtain ⟨e, he, hne2⟩ := hn
        rcases List.mem_append.mp he with he | he
        · right; right
          rw [mem_subterms_items]
          exact ⟨e, List.mem_of_mem_filter he, hne2⟩
        · left
          rw [List.mem_singleton.mp he] at hne2
          simp only [subterms, List.mem_singleton] at hne2
          exact ⟨_, hne2⟩
  · simp only [subterms, List.mem_cons] at hn
    rcases hn with hn | hn
    · right; left
      exact ⟨_, hn, folded_children_of_nonconst _ (filter_nonconst_all L)⟩
    · right; right
      rw [mem_subterms_items] at hn ⊢
      obtain ⟨e, he, hne2⟩ := hn
      exact ⟨e, List.mem_of_mem_filter he, hne2⟩

mutual
theorem simplify_nodes_folded [Add α] [Zero α] [Mul α] [One α] :
    ∀ (e n : Expr α), n ∈ subterms (simplify e) →
      ∀ items, (n = .add items ∨ n = .mul items) → FoldedChildren items
  | .const v, n, hn, items, hk => by
    simp only [simplify, subterms, List.mem_singleton] at hn
    rcases hk with hk | hk <;> rw [hk] at hn <;> exact Expr.noConfusion hn
  | .var x, n, hn, items, hk => by
    simp only [simplify, subterms, List.mem_singleton] at hn
    rcases hk with hk | hk <;> rw [hk] at hn <;> exact Expr.noConfusion hn
  | .pow b x, n, hn, items, hk => by
    simp only [simplify, subterms, List.mem_cons, List.mem_append] at hn
    rcases hn with hn | hn | hn
    · rcases hk with hk | hk <;> rw [hk] at hn <;> exact Expr.noConfusion hn
    · exact simplify_nodes_folded b n hn items hk
    · exact simplify_nodes_folded x n hn items hk
  | .add l, n, hn, items, hk => by
    rw [simplify] at hn
    rcases subterms_rebuild_add _ n hn with ⟨v, hv⟩ | ⟨its, hits, hf⟩ | hsub
    · rcases hk with hk | hk <;> rw [hk] at hv <;> exact Expr.noConfusion hv
    · rcases hk with hk | hk
      · rw [hk] at hits
        rw [Expr.add.inj hits]
        exact hf
      · rw [hk] at hits
        exact Expr.noConfusion hits
    · exact simplify_items_nodes_folded l n hsub items hk
  | .mul l, n, hn, items, hk => by
    rw [simplify] at hn
    rcases subterms_rebuild_mul _ n hn with ⟨v, hv⟩ | ⟨its, hits, hf⟩ | hsub
    · rcases hk with hk | hk <;> rw [hk] at hv <;> exact Expr.noConfusion hv
    · rcases hk with hk | hk
      · rw [hk] at hits
        exact Expr.noConfusion hits
      · rw [hk] at hits
        rw [Expr.mul.inj hits]
        exact hf
    · exact simplify_items_nodes_folded l n hsub items hk
theorem simplify_items_nodes_folded [Add α] [Zero α] [Mul α] [One α] :
    ∀ (l : List (Expr α)) (n : Expr α), n ∈ subterms_items (simplify_items l) →
      ∀ items, (n = .add items ∨ n = .mul items) → FoldedChildren items
  | [], n, hn, _, _ => by
    simp only [simplify_items, subterms_items, List.not_mem_nil] at hn
  | e :: es, n, hn, items, hk => by
    simp only [simplify_items, subterms_items, List.mem_append] at hn
    rcases hn with hn | hn
    · exact simplify_nodes_folded e n hn items hk
    · exact simplify_items_nodes_folded es n hn items hk
end

/-- C22. In `simplify e` every `Sum` or `Product` node has at most one constant
child; when it has one, that constant is its last child and the node has a
child that is not a constant. -/
theorem simplify_one_trailing_const [Add α] [Zero α] [Mul α] [One α] (e n : Expr α)
    (hn : n ∈ subterms (simplify e)) (items : List (Expr α))
    (hk : n = .add items ∨ n = .mul items) :
    (items.filter Expr.isConst).length ≤ 1 ∧
    ((items.filter Expr.isConst).length = 1 →
      (∃ v, items.getLast? = some (.const v)) ∧ ∃ c ∈ items, c.isConst = false) :=
  simplify_nodes_folded e n hn items hk

/-- C22 on `Product(Sum(Const 1, Var x, Const 2), Const 5, Var y)`: the inner
node of the result is `Sum(Var x, Const 3)`. -/
theorem simplify_one_trailing_const_witness :
    Expr.add [.var "x", .const (3 : ℤ)] ∈
      subterms (simplify (Expr.mul [.add [.const (1 : ℤ), .var "x", .const 2], .const 5,
        .var "y"])) ∧
    (Expr.add [.var "x", .const (3 : ℤ)] = .add [.var "x", .const (3 : ℤ)] ∨
      Expr.add [.var "x", .const (3 : ℤ)] = .mul [.var "x", .const (3 : ℤ)]) ∧
    ([Expr.var "x", .const (3 : ℤ)].filter Expr.isConst).length ≤ 1 ∧
    (([Expr.var "x", .const (3 : ℤ)].filter Expr.isConst).length = 1 →
      (∃ v, [Expr.var "x", .const (3 : ℤ)].getLast? = some (.const v)) ∧
        ∃ c ∈ [Expr.var "x", .const (3 : ℤ)], c.isConst = false) :=
  ⟨by simp [simplify, simplify_items, rebuild_add, rebuild_mul, partition_items,
      fold_constants_add, fold_constants_mul, simd_add4, subterms, subterms_items],
   Or.inl rfl,
   simplify_one_trailing_const
     (Expr.mul [.add [.const (1 : ℤ), .var "x", .const 2], .const 5, .var "y"])
     (Expr.add [.var "x", .const (3 : ℤ)])
     (by simp [simplify, simplify_items, rebuild_add, rebuild_mul, partition_items,
        fold_constants_add, fold_constants_mul, simd_add4, subterms, subterms_items])
     [.var "x", .const 3] (Or.inl rfl)⟩

end SymbolicAlgebra

namespace SatSolver

/-! ## Arrays as lists -/

theorem getD_set_self {β : Type} (a : List β) (i : Nat) (x d : β) (h : i < a.length) :
    (a.set i x).getD i d = x := by
  simp [List.getD_eq_getElem?_getD, List.getElem?_set, h]

theorem getD_set_of_ne {β : Type} (a : List β) (i j : Nat) (x d : β) (h : i ≠ j) :
    (a.set i x).getD j d = a.getD j d := by
  simp [List.getD_eq_getElem?_getD, List.getElem?_set, h]

/-! ## Assigning a literal -/

theorem enqueue_lit_of_assigned (s : Solver) (l : Int)
    (hc : s.assign.getD (lit_var l) 0 ≠ 0) :
    enqueue_lit s l = (decide (s.assign.getD (lit_var l) 0 = if l > 0 then 1 else -1), s) := by
  simp only [enqueue_lit, hc, ne_eq, not_false_eq_true, if_true]

theorem enqueue_lit_of_unassigned (s : Solver) (l : Int)
    (hc : s.assign.getD (lit_var l) 0 = 0) :
    enqueue_lit s l =
      (true, { s with assign := s.assign.set (lit_var l) (if l > 0 then 1 else -1),
                      trail := s.trail ++ [l] }) := by
  simp only [enqueue_lit, hc, ne_eq, not_true_eq_false, if_false]

theorem enqueue_lit_f (s : Solver) (l : Int) : (enqueue_lit s l).2.f = s.f := by
  by_cases hc : s.assign.getD (lit_var l) 0 = 0
  · rw [enqueue_lit_of_unassigned s l hc]
  · rw [enqueue_lit_of_assigned s l hc]

theorem enqueue_lit_assign_length (s : Solver) (l : Int) :
    (enqueue_lit s l).2.assign.length = s.assign.length := by
  by_cases hc : s.assign.getD (lit_var l) 0 = 0
  · rw [enqueue_lit_of_unassigned s l hc]; simp
  · rw [enqueue_lit_of_assigned s l hc]

theorem enqueue_lit_fails_on_false (s : Solver) (l : Int) (h : lit_value s.assign l = -1) :
    (enqueue_lit s l).1 = false := by
  unfold lit_value at h
  by_cases hl : l > 0
  · simp only [hl, if_true] at h
    rw [enqueue_lit_of_assigned s l (by rw [h]; decide)]
    simp only [hl, h, if_true]
    rfl
  · simp only [hl, if_false] at h
    have h1 : s.assign.getD (lit_var l) 0 = 1 := by omega
    rw [enqueue_lit_of_assigned s l (by rw [h1]; decide)]
    simp only [hl, h1, if_false]
    rfl

theorem enqueue_lit_true_after (s : Solver) (l : Int) (hv : lit_var l < s.assign.length)
    (h : (enqueue_lit s l).1 = true) : lit_value (enqueue_lit s l).2.assign l = 1 := by
  by_cases hc : s.assign.getD (lit_var l) 0 = 0
  · rw [enqueue_lit_of_unassigned s l hc]
    unfold lit_value
    simp only [getD_set_self _ _ _ _ hv]
    by_cases hl : l > 0 <;> simp [hl]
  · rw [enqueue_lit_of_assigned s l hc] at h ⊢
    simp only [decide_eq_true_eq] at h
    unfold lit_value
    simp only
    rw [h]
    by_cases hl : l > 0 <;> simp [hl]

theorem enqueue_lit_keeps_assigned (s : Solver) (l l1 : Int)
    (h : lit_value s.assign l1 ≠ 0) :
    lit_value (enqueue_lit s l).2.assign l1 = lit_value s.assign l1 := by
  by_cases hc : s.assign.getD (lit_var l) 0 = 0
  · rw [enqueue_lit_of_unassigned s l hc]
    have hne : lit_var l ≠ lit_var l1 := by
      intro heq
      apply h
      unfold lit_value
      rw [← heq, hc]
      simp
    unfold lit_value
    simp only [getD_set_of_ne _ _ _ _ _ hne]
  · rw [enqueue_lit_of_assigned s l hc]

/-! ## The clause loop of the entry point -/

theorem watch_push_assign (s : Solver) (ci wi : Nat) (l : Int) :
    (watch_push s ci wi l).assign = s.assign := by
  unfold watch_push; split <;> rfl

theorem watch_push_f (s : Solver) (ci wi : Nat) (l : Int) :
    (watch_push s ci wi l).f = s.f := by
  unfold watch_push; split <;> rfl

theorem watch_push_trail (s : Solver) (ci wi : Nat) (l : Int) :
    (watch_push s ci wi l).trail = s.trail := by
  unfold watch_push; split <;> rfl

theorem foldl_watch_push_assign (g : Nat → Int) (ci : Nat) (ws : List Nat) (s : Solver) :
    (ws.foldl (fun st wi => watch_push st ci wi (g wi)) s).assign = s.assign := by
  induction ws generalizing s with
  | nil => rfl
  | cons w ws ih => rw [List.foldl_cons, ih, watch_push_assign]

theorem foldl_watch_push_f (g : Nat → Int) (ci : Nat) (ws : List Nat) (s : Solver) :
    (ws.foldl (fun st wi => watch_push st ci wi (g wi)) s).f = s.f := by
  induction ws generalizing s with
  | nil => rfl
  | cons w ws ih => rw [List.foldl_cons, ih, watch_push_f]

theorem foldl_watch_push_trail (g : Nat → Int) (ci : Nat) (ws : List Nat) (s : Solver) :
    (ws.foldl (fun st wi => watch_push st ci wi (g wi)) s).trail = s.trail := by
  induction ws generalizing s with
  | nil => rfl
  | cons w ws ih => rw [List.foldl_cons, ih, watch_push_trail]

/-- What the body of the clause loop does to the assignment: nothing on a
clause of two literals or more, `enqueue_lit` of the literal on a unit clause. -/
theorem init_clause_some (s s1 : Solver) (ci : Nat) (c : Clause)
    (h : init_clause s ci c = some s1) :
    c.lits ≠ [] ∧ s1.f = s.f ∧
    ((∃ l, c.lits = [l] ∧ (enqueue_lit s l).1 = true ∧
        s1.assign = (enqueue_lit s l).2.assign ∧ s1.trail = (enqueue_lit s l).2.trail) ∨
     (c.lits.length ≠ 1 ∧ s1.assign = s.assign ∧ s1.trail = s.trail)) := by
  unfold init_clause at h
  split at h
  · exact Option.noConfusion h
  · next hne =>
    have hne2 : c.lits ≠ [] := fun h0 => hne (by simp [h0])
    by_cases h1 : c.lits.length = 1
    · simp only [h1, if_true] at h
      obtain ⟨l, hl⟩ := List.length_eq_one.mp h1
      simp only [hl, List.getD_cons_zero] at h
      split at h
      · next hr =>
        have h2 := Option.some.inj h
        subst h2
        refine ⟨hne2, ?_, Or.inl ⟨l, hl, hr, ?_, ?_⟩⟩
        · rw [foldl_watch_push_f, enqueue_lit_f]
        · rw [← hl, foldl_watch_push_assign]
        · rw [← hl, foldl_watch_push_trail]
      · exact Option.noConfusion h
    · simp only [h1, if_false, if_true] at h
      have h2 := Option.some.inj h
      subst h2
      refine ⟨hne2, ?_, Or.inr ⟨h1, ?_, ?_⟩⟩
      · rw [foldl_watch_push_f]
      · rw [foldl_watch_push_assign]
      · rw [foldl_watch_push_trail]

theorem lit_value_neg (a : List Int) (l : Int) (hl : l ≠ 0) :
    lit_value a (-l) = - lit_value a l := by
  unfold lit_value lit_var
  rw [Int.natAbs_neg]
  by_cases h : l > 0
  · have : ¬ (-l > 0) := by omega
    simp [h, this]
  · have : -l > 0 := by omega
    simp [h, this]

theorem init_watches_blocked (cls : List Clause) :
    ∀ (ci : Nat) (s : Solver), s.assign.length = s.f.n_vars + 1 → Blocked cls s →
      init_watches cls ci s = none := by
  induction cls with
  | nil =>
    intro ci s _ hb
    rcases hb with ⟨c, hc, _⟩ | ⟨l, _, ⟨c, hc, _⟩, _⟩ | ⟨l, _, ⟨c, hc, _⟩, _⟩ <;> simp at hc
  | cons c rest ih =>
    intro ci s hlen hb
    unfold init_watches
    cases hic : init_clause s ci c with
    | none => rfl
    | some s1 =>
      simp only
      obtain ⟨hne, hf, hcases⟩ := init_clause_some s s1 ci c hic
      have hlen1 : s1.assign.length = s1.f.n_vars + 1 := by
        rcases hcases with ⟨l, _, _, ha, _⟩ | ⟨_, ha, _⟩
        · rw [ha, enqueue_lit_assign_length, hf, hlen]
        · rw [ha, hf, hlen]
      -- values that are set stay as they are
      have hkeep : ∀ l1, lit_value s.assign l1 ≠ 0 →
          lit_value s1.assign l1 = lit_value s.assign l1 := by
        intro l1 h1
        rcases hcases with ⟨l, _, _, ha, _⟩ | ⟨_, ha, _⟩
        · rw [ha]; exact enqueue_lit_keeps_assigned s l l1 h1
        · rw [ha]
      apply ih (ci + 1) s1 hlen1
      rcases hb with ⟨c0, hc0, hemp⟩ | ⟨l, hlit, ⟨c0, hc0, hu⟩, hval⟩ |
          ⟨l, hlit, ⟨c1, hc1, hu1⟩, ⟨c2, hc2, hu2⟩⟩
      · -- an empty clause further on
        rcases List.mem_cons.mp hc0 with rfl | hc0
        · exact absurd hemp hne
        · exact Or.inl ⟨c0, hc0, hemp⟩
      · -- a unit clause whose literal is false
        rcases List.mem_cons.mp hc0 with rfl | hc0
        · rcases hcases with ⟨l0, hl0, hok, _, _⟩ | ⟨hn1, _, _⟩
          · rw [hu] at hl0
            have : l = l0 := by simpa using hl0
            subst this
            rw [enqueue_lit_fails_on_false s l hval] at hok
            exact Bool.noConfusion hok
          · exact absurd (by simp [hu]) hn1
        · refine Or.inr (Or.inl ⟨l, hf ▸ hlit, ⟨c0, hc0, hu⟩, ?_⟩)
          rw [hkeep l (by rw [hval]; decide), hval]
      · -- two complementary unit clauses
        have hl0 : l ≠ 0 := hlit.1
        have hlitn : IsLit s.f (-l) := by
          refine ⟨by omega, ?_⟩
          have := hlit.2
          unfold lit_var at this ⊢
          rwa [Int.natAbs_neg]
        have hrange : lit_var l < s.assign.length := by
          have := hlit.2
          omega
        have hrangen : lit_var (-l) < s.assign.length := by
          have := hlitn.2
          omega
        rcases List.mem_cons.mp hc1 with rfl | hc1r
        · rcases List.mem_cons.mp hc2 with rfl | hc2r
          · rw [hu1] at hu2
            have : l = -l := by simpa using hu2
            omega
          · rcases hcases with ⟨l0, hl0', hok, ha, _⟩ | ⟨hn1, _, _⟩
            · rw [hu1] at hl0'
              have : l = l0 := by simpa using hl0'
              subst this
              refine Or.inr (Or.inl ⟨-l, hf ▸ hlitn, ⟨c2, hc2r, hu2⟩, ?_⟩)
              rw [lit_value_neg _ _ hl0, ha, enqueue_lit_true_after s l hrange hok]
            · exact absurd (by simp [hu1]) hn1
        · rcases List.mem_cons.mp hc2 with rfl | hc2r
          · rcases hcases with ⟨l0, hl0', hok, ha, _⟩ | ⟨hn1, _, _⟩
            · rw [hu2] at hl0'
              have : -l = l0 := by simpa using hl0'
              subst this
              refine Or.inr (Or.inl ⟨l, hf ▸ hlit, ⟨c1, hc1r, hu1⟩, ?_⟩)
              have h1 := enqueue_lit_true_after s (-l) hrangen hok
              rw [lit_value_neg _ _ hl0] at h1
              rw [ha]
              omega
            · exact absurd (by simp [hu2]) hn1
          · exact Or.inr (Or.inr ⟨l, hf ▸ hlit, ⟨c1, hc1r, hu1⟩, ⟨c2, hc2r, hu2⟩⟩)

theorem solver_new_assign_length (f : Formula) :
    (solver_new f).assign.length = (solver_new f).f.n_vars + 1 := by
  simp [solver_new]

/-- C9. A formula that holds a clause of size `0`, or two unit clauses `(l)`
and `(¬l)` on a literal of the formula, gets the verdict `false` from
`solve_cnf_dimacs`, returned by its clause loop whatever the fuel. -/
theorem solve_unsat_on_empty_or_complementary_units (fuel : Nat) (f : Formula)
    (h : (∃ c ∈ f.clauses, c.lits = []) ∨
      (∃ l, IsLit f l ∧ (∃ c ∈ f.clauses, c.lits = [l]) ∧ (∃ c ∈ f.clauses, c.lits = [-l]))) :
    solve_cnf_dimacs fuel f = some false := by
  have hb : Blocked f.clauses (solver_new f) := by
    rcases h with h | h
    · exact Or.inl h
    · exact Or.inr (Or.inr h)
  unfold solve_cnf_dimacs solver_init
  rw [init_watches_blocked f.clauses 0 (solver_new f) (solver_new_assign_length f) hb]

/-- C9 on scenario S2, the formula with the clauses `(1)` and `(-1)`. -/
theorem solve_unsat_on_empty_or_complementary_units_witness :
    ((∃ c ∈ (parse_formula 1 [[1], [-1]]).clauses, c.lits = []) ∨
      (∃ l, IsLit (parse_formula 1 [[1], [-1]]) l ∧
        (∃ c ∈ (parse_formula 1 [[1], [-1]]).clauses, c.lits = [l]) ∧
        (∃ c ∈ (parse_formula 1 [[1], [-1]]).clauses, c.lits = [-l]))) ∧
    solve_cnf_dimacs 2 (parse_formula 1 [[1], [-1]]) = some false :=
  ⟨Or.inr ⟨1, ⟨by decide, by decide⟩, ⟨parse_clause [1], by simp [parse_formula], rfl⟩,
      ⟨parse_clause [-1], by simp [parse_formula], rfl⟩⟩,
   solve_unsat_on_empty_or_complementary_units 2 (parse_formula 1 [[1], [-1]])
    (Or.inr ⟨1, ⟨by decide, by decide⟩, ⟨parse_clause [1], by simp [parse_formula], rfl⟩,
      ⟨parse_clause [-1], by simp [parse_formula], rfl⟩⟩)⟩

/-- C1 fails on scenario S4: on the formula `(1 2) (-1 2) (1 -2) (-1 -2)`, which
no truth assignment satisfies, `solve_cnf_dimacs` returns `true`. -/
theorem solve_true_on_unsatisfiable :
    solve_cnf_dimacs 5 (parse_formula 4 [[1, 2], [-1, 2], [1, -2], [-1, -2]]) = some true ∧
    ¬ Satisfiable (parse_formula 4 [[1, 2], [-1, 2], [1, -2], [-1, -2]]) := by
  refine ⟨by decide, ?_⟩
  rintro ⟨σ, h⟩
  simp only [parse_formula, parse_clause, List.map_cons, List.map_nil, List.mem_cons,
    List.mem_singleton, List.not_mem_nil, or_false, forall_eq_or_imp, forall_eq, exists_eq_or_imp,
    exists_eq_left, lit_true, lit_var] at h
  obtain ⟨h1, h2, h3, h4⟩ := h
  cases h1v : σ 1 <;> cases h2v : σ 2 <;> simp [h1v, h2v] at h1 h2 h3 h4


/-! ## Propagation on a settled state -/

theorem watch_list_entry_lit (s : Solver) (hs : Settled s) (l : Int) :
    ∀ e ∈ watch_list s l, entry_lit s e = l := by
  intro e he
  unfold watch_list at he
  split at he
  · next hneg =>
    rw [hs.watch_neg _ e he]
    unfold lit_var
    omega
  · next hneg =>
    rw [hs.watch_pos _ e he]
    unfold lit_var
    omega

theorem watch_visit_of_true (s : Solver) (ci wp : Nat)
    (h : lit_value s.assign (entry_lit s (ci, wp)) = 1) :
    watch_visit s ci wp = some (true, s) := by
  unfold entry_lit at h
  simp only [watch_visit, h, if_true]

theorem watch_scan_entries_of_true (es : List (Nat × Nat)) (s : Solver)
    (h : ∀ e ∈ es, lit_value s.assign (entry_lit s e) = 1) :
    watch_scan_entries es s = some (true, s) := by
  induction es with
  | nil => rfl
  | cons e es ih =>
    obtain ⟨ci, wp⟩ := e
    simp only [watch_scan_entries, watch_visit_of_true s ci wp (h (ci, wp) (List.mem_cons_self _ _))]
    exact ih (fun e he => h e (List.mem_cons_of_mem _ he))

theorem watch_scan_update_simd_settled (s : Solver) (hs : Settled s) (hsl : ShortLists s)
    (l : Int) (hl : l ∈ s.trail) : watch_scan_update_simd s l = some (true, s) := by
  unfold watch_scan_update_simd
  rw [if_neg (Nat.not_le.mpr (hsl l))]
  apply watch_scan_entries_of_true
  intro e he
  rw [watch_list_entry_lit s hs l e he]
  exact hs.trail_true l hl

theorem unit_propagation_loop_settled (s : Solver) (hs : Settled s) (hsl : ShortLists s) :
    ∀ (fuel head : Nat), 0 < fuel → s.trail.length < head + fuel →
      unit_propagation_loop fuel head s = some (true, s) := by
  intro fuel
  induction fuel with
  | zero =>
    intro head h0 _
    exact absurd h0 (Nat.lt_irrefl 0)
  | succ fuel ih =>
    intro head _ h
    unfold unit_propagation_loop
    by_cases hh : head < s.trail.length
    · have hmem : s.trail.getD head 0 ∈ s.trail := by
        rw [List.getD_eq_getElem _ _ hh]
        exact List.getElem_mem _
      simp only [hh, if_true, watch_scan_update_simd_settled s hs hsl _ hmem]
      exact ih (head + 1) (by omega) (by omega)
    · simp only [hh, if_false]

/-- On a settled state whose watch lists are short, propagation changes nothing
and reports no conflict. -/
theorem unit_propagation_simd_settled (s : Solver) (hs : Settled s) (hsl : ShortLists s)
    (fuel : Nat) (h : s.f.n_vars < fuel) : unit_propagation_simd fuel s = some (true, s) := by
  unfold unit_propagation_simd
  have := hs.count
  exact unit_propagation_loop_settled s hs hsl fuel 0 (by omega) (by omega)

theorem unit_propagation_loop_settled_or_none (s : Solver) (hs : Settled s)
    (hsl : ShortLists s) :
    ∀ (fuel head : Nat), unit_propagation_loop fuel head s = none ∨
      unit_propagation_loop fuel head s = some (true, s) := by
  intro fuel
  induction fuel with
  | zero => intro head; exact Or.inl rfl
  | succ fuel ih =>
    intro head
    unfold unit_propagation_loop
    by_cases hh : head < s.trail.length
    · have hmem : s.trail.getD head 0 ∈ s.trail := by
        rw [List.getD_eq_getElem _ _ hh]
        exact List.getElem_mem _
      simp only [hh, if_true, watch_scan_update_simd_settled s hs hsl _ hmem]
      exact ih (head + 1)
    · simp only [hh, if_false, or_true]

/-- Whatever the fuel, propagation on a settled state whose watch lists are
short has no result or returns the state as it was. -/
theorem unit_propagation_simd_settled_or_none (s : Solver) (hs : Settled s)
    (hsl : ShortLists s) (fuel : Nat) :
    unit_propagation_simd fuel s = none ∨ unit_propagation_simd fuel s = some (true, s) :=
  unit_propagation_loop_settled_or_none s hs hsl fuel 0

theorem short_lists_dl_stack (s : Solver) (hsl : ShortLists s) (d : List Nat) :
    ShortLists { s with dl_stack := d } :=
  fun l => hsl l

theorem enqueue_lit_short_lists (s : Solver) (l : Int) (hsl : ShortLists s) :
    ShortLists (enqueue_lit s l).2 := by
  by_cases hc : s.assign.getD (lit_var l) 0 = 0
  · rw [enqueue_lit_of_unassigned s l hc]
    exact fun k => hsl k
  · rw [enqueue_lit_of_assigned s l hc]
    exact hsl

theorem enqueue_lit_dl_stack (s : Solver) (l : Int) :
    (enqueue_lit s l).2.dl_stack = s.dl_stack := by
  by_cases hc : s.assign.getD (lit_var l) 0 = 0
  · rw [enqueue_lit_of_unassigned s l hc]
  · rw [enqueue_lit_of_assigned s l hc]

theorem enqueue_lit_var_act (s : Solver) (l : Int) :
    (enqueue_lit s l).2.var_act = s.var_act := by
  by_cases hc : s.assign.getD (lit_var l) 0 = 0
  · rw [enqueue_lit_of_unassigned s l hc]
  · rw [enqueue_lit_of_assigned s l hc]


/-! ## Counting the unassigned variables -/

theorem countP_range_flip (p q : Nat → Bool) (i0 : Nat) (hq : q i0 = false) (hp : p i0 = true)
    (hne : ∀ i, i ≠ i0 → q i = p i) (m : Nat) :
    (List.range m).countP q + (if i0 < m then 1 else 0) = (List.range m).countP p := by
  induction m with
  | zero => simp
  | succ m ih =>
    rw [List.range_succ, List.countP_append, List.countP_append, ← ih]
    by_cases h1 : i0 < m
    · have h2 : i0 < m + 1 := by omega
      have h3 : m ≠ i0 := by omega
      simp only [h1, h2, if_true, List.countP_cons, List.countP_nil, hne m h3]
      omega
    · by_cases h4 : i0 = m
      · subst h4
        simp [List.countP_cons, hq, hp]
      · have h2 : ¬ i0 < m + 1 := by omega
        have h3 : m ≠ i0 := fun h => h4 h.symm
        simp [h1, h2, List.countP_cons, hne m h3]

theorem unassigned_count_set (s : Solver) (v : Nat) (val : Int) (tr : List Int)
    (hv1 : 1 ≤ v) (hvn : v ≤ s.f.n_vars) (hlen : s.assign.length = s.f.n_vars + 1)
    (hcur : s.assign.getD v 0 = 0) (hval : val ≠ 0) :
    unassigned_count { s with assign := s.assign.set v val, trail := tr } + 1 =
      unassigned_count s := by
  unfold unassigned_count
  have h := countP_range_flip
    (fun i => decide (s.assign.getD (i + 1) 0 = 0))
    (fun i => decide ((s.assign.set v val).getD (i + 1) 0 = 0)) (v - 1)
    (by
      have : v - 1 + 1 = v := by omega
      simp only [this, decide_eq_false_iff_not]
      rw [getD_set_self _ _ _ _ (by omega)]
      exact hval)
    (by
      have : v - 1 + 1 = v := by omega
      simp only [this, decide_eq_true_eq]
      exact hcur)
    (by
      intro i hi
      have : v ≠ i + 1 := by omega
      simp only [getD_set_of_ne _ _ _ _ _ this])
    s.f.n_vars
  have hlt : v - 1 < s.f.n_vars := by omega
  simp only [hlt, if_true] at h
  exact h

/-! ## The state after `enqueue_lit` on an unassigned variable -/

theorem settled_dl_stack (s : Solver) (hs : Settled s) (d : List Nat) :
    Settled { s with dl_stack := d } :=
  ⟨hs.len, hs.trail_true, hs.watch_pos, hs.watch_neg, hs.count⟩

theorem enqueue_lit_settled (s : Solver) (hs : Settled s) (l : Int) (hl0 : l ≠ 0)
    (hr : lit_var l ≤ s.f.n_vars) (hc : s.assign.getD (lit_var l) 0 = 0) :
    (enqueue_lit s l).1 = true ∧ Settled (enqueue_lit s l).2 ∧
      unassigned_count (enqueue_lit s l).2 + 1 = unassigned_count s := by
  have hlen := hs.len
  have hv : lit_var l < s.assign.length := by omega
  have h1 : 1 ≤ lit_var l := by unfold lit_var; omega
  have hok : (enqueue_lit s l).1 = true := by rw [enqueue_lit_of_unassigned s l hc]
  have hval : (if l > 0 then (1 : Int) else -1) ≠ 0 := by split <;> decide
  have hcount := unassigned_count_set s (lit_var l) (if l > 0 then 1 else -1) (s.trail ++ [l])
    h1 hr hlen hc hval
  have hlast := enqueue_lit_true_after s l hv hok
  have hkeep := enqueue_lit_keeps_assigned s l
  rw [enqueue_lit_of_unassigned s l hc] at hlast hkeep ⊢
  refine ⟨rfl, ⟨?_, ?_, hs.watch_pos, hs.watch_neg, ?_⟩, hcount⟩
  · simp only [List.length_set]; exact hlen
  · intro l1 hl1
    simp only [List.mem_append, List.mem_singleton] at hl1
    rcases hl1 with hl1 | rfl
    · have := hs.trail_true l1 hl1
      rw [hkeep l1 (by rw [this]; decide), this]
    · exact hlast
  · have := hs.count
    simp only [List.length_append, List.length_singleton]
    show s.trail.length + 1 + unassigned_count
      { s with assign := s.assign.set (lit_var l) (if l > 0 then 1 else -1),
               trail := s.trail ++ [l] } = s.f.n_vars
    omega

/-! ## Branching -/

theorem pick_branch_var_spec (s : Solver) :
    pick_branch_var s = 0 ∨
      (1 ≤ pick_branch_var s ∧ pick_branch_var s ≤ s.f.n_vars ∧
        s.assign.getD (pick_branch_var s) 0 = 0) := by
  unfold pick_branch_var
  have key : ∀ (xs : List Nat) (acc : Nat × ℚ), (∀ i ∈ xs, i < s.f.n_vars) →
      (acc.1 = 0 ∨ (1 ≤ acc.1 ∧ acc.1 ≤ s.f.n_vars ∧ s.assign.getD acc.1 0 = 0)) →
      ((xs.foldl (fun (acc : Nat × ℚ) i =>
          if s.assign.getD (i + 1) 0 = 0 ∧ s.var_act.getD (i + 1) 0 > acc.2
          then (i + 1, s.var_act.getD (i + 1) 0) else acc) acc).1 = 0 ∨
        (1 ≤ (xs.foldl (fun (acc : Nat × ℚ) i =>
          if s.assign.getD (i + 1) 0 = 0 ∧ s.var_act.getD (i + 1) 0 > acc.2
          then (i + 1, s.var_act.getD (i + 1) 0) else acc) acc).1 ∧
         (xs.foldl (fun (acc : Nat × ℚ) i =>
          if s.assign.getD (i + 1) 0 = 0 ∧ s.var_act.getD (i + 1) 0 > acc.2
          then (i + 1, s.var_act.getD (i + 1) 0) else acc) acc).1 ≤ s.f.n_vars ∧
         s.assign.getD (xs.foldl (fun (acc : Nat × ℚ) i =>
          if s.assign.getD (i + 1) 0 = 0 ∧ s.var_act.getD (i + 1) 0 > acc.2
          then (i + 1, s.var_act.getD (i + 1) 0) else acc) acc).1 0 = 0)) := by
    intro xs
    induction xs with
    | nil => intro acc _ h; exact h
    | cons x xs ih =>
      intro acc hx h
      rw [List.foldl_cons]
      apply ih _ (fun i hi => hx i (List.mem_cons_of_mem _ hi))
      split
      · next hc =>
        have := hx x (List.mem_cons_self _ _)
        exact Or.inr ⟨by simp, by simp; omega, hc.1⟩
      · exact h
  exact key (List.range s.f.n_vars) (0, -1) (fun i hi => List.mem_range.mp hi) (Or.inl rfl)

theorem branch_lit_ne_zero (s : Solver) (v : Nat) (hv : 1 ≤ v) : branch_lit s v ≠ 0 := by
  unfold branch_lit; split <;> omega

theorem lit_var_branch_lit (s : Solver) (v : Nat) : lit_var (branch_lit s v) = v := by
  unfold branch_lit lit_var; split <;> simp

/-- A positive count when a variable in range is unassigned. -/
theorem unassigned_count_pos (s : Solver) (v : Nat) (hv1 : 1 ≤ v) (hvn : v ≤ s.f.n_vars)
    (hcur : s.assign.getD v 0 = 0) : 0 < unassigned_count s := by
  unfold unassigned_count
  rw [List.countP_pos_iff]
  refine ⟨v - 1, List.mem_range.mpr (by omega), ?_⟩
  have : v - 1 + 1 = v := by omega
  simp only [this, decide_eq_true_eq]
  exact hcur

/-! ## The two searches on a settled state -/

theorem cdcl_loop_settled (pfuel : Nat) :
    ∀ (fuel : Nat) (s : Solver), Settled s → ShortLists s → s.f.n_vars < pfuel →
      unassigned_count s < fuel → s.dl_stack.length + unassigned_count s ≤ dl_stack_cap →
      ∃ s1, cdcl_loop pfuel fuel s = some (true, s1) := by
  intro fuel
  induction fuel with
  | zero => intro s _ _ _ h _; omega
  | succ fuel ih =>
    intro s hs hsl hp hu hcap
    unfold cdcl_loop
    rcases pick_branch_var_spec s with h0 | ⟨hv1, hvn, hcur⟩
    · exact ⟨s, by simp only [h0, if_true]⟩
    · have hv0 : pick_branch_var s ≠ 0 := by omega
      have hpos := unassigned_count_pos s _ hv1 hvn hcur
      have hroom : ¬ dl_stack_cap ≤ s.dl_stack.length := by omega
      have hs0 := settled_dl_stack s hs (s.dl_stack ++ [s.trail.length])
      have hsl0 := short_lists_dl_stack s hsl (s.dl_stack ++ [s.trail.length])
      obtain ⟨hok, hs1, hcnt⟩ := enqueue_lit_settled _ hs0 (branch_lit s (pick_branch_var s))
        (branch_lit_ne_zero s _ hv1) (by rw [lit_var_branch_lit]; exact hvn)
        (by rw [lit_var_branch_lit]; exact hcur)
      have hsl1 := enqueue_lit_short_lists _ (branch_lit s (pick_branch_var s)) hsl0
      have hf : (enqueue_lit { s with dl_stack := s.dl_stack ++ [s.trail.length] }
          (branch_lit s (pick_branch_var s))).2.f = s.f := by rw [enqueue_lit_f]
      have hdl : (enqueue_lit { s with dl_stack := s.dl_stack ++ [s.trail.length] }
          (branch_lit s (pick_branch_var s))).2.dl_stack.length = s.dl_stack.length + 1 := by
        rw [enqueue_lit_dl_stack]; simp
      have hprop := unit_propagation_simd_settled _ hs1 hsl1 pfuel (by rw [hf]; exact hp)
      simp only [hv0, if_false, hroom, hok, if_true, hprop]
      have hu0 : unassigned_count { s with dl_stack := s.dl_stack ++ [s.trail.length] } =
          unassigned_count s := rfl
      exact ih _ hs1 hsl1 (by rw [hf]; exact hp) (by omega) (by omega)

/-- On a settled state whose watch lists are short and whose decision stack has
room for the variables left, `cdcl_solve` returns `true`. -/
theorem cdcl_solve_settled (s : Solver) (hs : Settled s) (hsl : ShortLists s) (fuel : Nat)
    (h : s.f.n_vars < fuel) (hcap : s.dl_stack.length + unassigned_count s ≤ dl_stack_cap) :
    ∃ s1, cdcl_solve fuel s = some (true, s1) := by
  unfold cdcl_solve
  rw [unit_propagation_simd_settled s hs hsl fuel h]
  have := hs.count
  exact cdcl_loop_settled fuel fuel s hs hsl h (by omega) hcap

theorem dpll_rec_settled (pfuel : Nat) :
    ∀ (fuel : Nat) (s : Solver), Settled s → ShortLists s → s.f.n_vars < pfuel →
      unassigned_count s < fuel → ∃ s1, dpll_rec pfuel fuel s = some (true, s1) := by
  intro fuel
  induction fuel with
  | zero => intro s _ _ _ h; omega
  | succ fuel ih =>
    intro s hs hsl hp hu
    unfold dpll_rec
    rw [unit_propagation_simd_settled s hs hsl pfuel hp]
    rcases pick_branch_var_spec s with h0 | ⟨hv1, hvn, hcur⟩
    · exact ⟨s, by simp only [h0, if_true]⟩
    · have hv0 : pick_branch_var s ≠ 0 := by omega
      obtain ⟨hok, hs1, hcnt⟩ := enqueue_lit_settled _ hs (branch_lit s (pick_branch_var s))
        (branch_lit_ne_zero s _ hv1) (by rw [lit_var_branch_lit]; exact hvn)
        (by rw [lit_var_branch_lit]; exact hcur)
      have hsl1 := enqueue_lit_short_lists s (branch_lit s (pick_branch_var s)) hsl
      have hf : (enqueue_lit s (branch_lit s (pick_branch_var s))).2.f = s.f := by
        rw [enqueue_lit_f]
      have hprop := unit_propagation_simd_settled _ hs1 hsl1 pfuel (by rw [hf]; exact hp)
      obtain ⟨s2, h2⟩ := ih _ hs1 hsl1 (by rw [hf]; exact hp) (by omega)
      exact ⟨s2, by simp only [hv0, if_false, hok, if_true, hprop, h2]⟩

/-- On a settled state whose watch lists are short, `dpll_solve` returns `true`. -/
theorem dpll_solve_settled (s : Solver) (hs : Settled s) (hsl : ShortLists s) (fuel : Nat)
    (h : s.f.n_vars < fuel) : ∃ s1, dpll_solve fuel s = some (true, s1) := by
  unfold dpll_solve
  have := hs.count
  exact dpll_rec_settled fuel fuel s hs hsl h (by omega)


/-! ## The state built by the clause loop -/

theorem mem_getD_set_append {β : Type} (L : List (List β)) (i j : Nat) (x e : β)
    (h : e ∈ (L.set i (L.getD i [] ++ [x])).getD j []) :
    e ∈ L.getD j [] ∨ (e = x ∧ j = i) := by
  by_cases hij : i = j
  · subst hij
    by_cases hlt : i < L.length
    · rw [getD_set_self _ _ _ _ hlt] at h
      rcases List.mem_append.mp h with h | h
      · exact Or.inl h
      · exact Or.inr ⟨List.mem_singleton.mp h, rfl⟩
    · rw [List.set_eq_of_length_le (by omega)] at h
      exact Or.inl h
  · rw [getD_set_of_ne _ _ _ _ _ hij] at h
    exact Or.inl h

theorem solver_new_settled (f : Formula) : Settled (solver_new f) := by
  refine ⟨by simp [solver_new], by simp [solver_new], ?_, ?_, ?_⟩
  · intro v e he
    simp [solver_new, List.getD_eq_getElem?_getD, List.getElem?_replicate] at he
    split at he <;> simp at he
  · intro v e he
    simp [solver_new, List.getD_eq_getElem?_getD, List.getElem?_replicate] at he
    split at he <;> simp at he
  · have hall : ∀ i ∈ List.range f.n_vars,
        (fun i => decide ((List.replicate (f.n_vars + 1) (0 : Int)).getD (i + 1) 0 = 0)) i = true := by
      intro i hi
      have := List.mem_range.mp hi
      simp [List.getD_eq_getElem?_getD, List.getElem?_replicate]
      split <;> simp
    show 0 + (List.range f.n_vars).countP
      (fun i => decide ((List.replicate (f.n_vars + 1) (0 : Int)).getD (i + 1) 0 = 0)) = f.n_vars
    rw [List.countP_eq_length.mpr hall]
    simp

theorem watch_push_settled (s : Solver) (hs : Settled s) (ci wi : Nat) (l : Int)
    (hl : entry_lit s (ci, wi) = l) : Settled (watch_push s ci wi l) := by
  unfold watch_push
  split
  · next hpos =>
    refine ⟨hs.len, hs.trail_true, ?_, hs.watch_neg, hs.count⟩
    intro v e he
    rcases mem_getD_set_append _ _ _ _ _ he with h | ⟨rfl, rfl⟩
    · exact hs.watch_pos v e h
    · show entry_lit s (ci, wi) = _
      rw [hl]
      unfold lit_var
      omega
  · next hpos =>
    refine ⟨hs.len, hs.trail_true, hs.watch_pos, ?_, hs.count⟩
    intro v e he
    rcases mem_getD_set_append _ _ _ _ _ he with h | ⟨rfl, rfl⟩
    · exact hs.watch_neg v e h
    · show entry_lit s (ci, wi) = _
      rw [hl]
      unfold lit_var
      omega

theorem foldl_watch_push_settled (c : Clause) (ci : Nat) (ws : List Nat) :
    ∀ s : Solver, Settled s → s.f.clauses.getD ci default = c →
      Settled (ws.foldl (fun st wi => watch_push st ci wi (c.lits.getD wi 0)) s) := by
  induction ws with
  | nil => intro s hs _; exact hs
  | cons w ws ih =>
    intro s hs hc
    rw [List.foldl_cons]
    apply ih
    · apply watch_push_settled s hs
      unfold entry_lit
      rw [hc]
    · rw [watch_push_f]; exact hc

theorem enqueue_lit_settled_of_lit (s : Solver) (hs : Settled s) (l : Int) (hl : IsLit s.f l) :
    Settled (enqueue_lit s l).2 := by
  by_cases hc : s.assign.getD (lit_var l) 0 = 0
  · exact (enqueue_lit_settled s hs l hl.1 hl.2 hc).2.1
  · rw [enqueue_lit_of_assigned s l hc]
    exact hs

theorem init_clause_settled (s s1 : Solver) (hs : Settled s) (ci : Nat) (c : Clause)
    (hc : s.f.clauses.getD ci default = c) (hwf : ∀ l ∈ c.lits, IsLit s.f l)
    (h : init_clause s ci c = some s1) : Settled s1 ∧ s1.f = s.f := by
  have hf := (init_clause_some s s1 ci c h).2.1
  refine ⟨?_, hf⟩
  unfold init_clause at h
  split at h
  · exact Option.noConfusion h
  · by_cases h1 : c.lits.length = 1
    · simp only [h1, if_true] at h
      split at h
      · have h2 := Option.some.inj h
        subst h2
        have hmem : c.lits.getD 0 0 ∈ c.lits := by
          rw [List.getD_eq_getElem _ _ (by omega)]
          exact List.getElem_mem _
        apply foldl_watch_push_settled c ci _ _
          (enqueue_lit_settled_of_lit s hs _ (hwf _ hmem))
        rw [enqueue_lit_f]; exact hc
      · exact Option.noConfusion h
    · simp only [h1, if_false, if_true] at h
      have h2 := Option.some.inj h
      subst h2
      exact foldl_watch_push_settled c ci _ s hs hc

theorem init_watches_settled (cls : List Clause) :
    ∀ (ci : Nat) (s s1 : Solver), Settled s → WellFormed s.f → s.f.clauses.drop ci = cls →
      init_watches cls ci s = some s1 → Settled s1 ∧ s1.f = s.f := by
  induction cls with
  | nil =>
    intro ci s s1 hs _ _ h
    simp only [init_watches, Option.some.injEq] at h
    subst h
    exact ⟨hs, rfl⟩
  | cons c rest ih =>
    intro ci s s1 hs hwf hdrop h
    unfold init_watches at h
    cases hic : init_clause s ci c with
    | none => rw [hic] at h; exact Option.noConfusion h
    | some s2 =>
      rw [hic] at h
      simp only at h
      have hget : s.f.clauses.getD ci default = c := by
        have h0 : (s.f.clauses.drop ci)[0]? = some c := by rw [hdrop]; simp
        rw [List.getElem?_drop, Nat.add_zero] at h0
        rw [List.getD_eq_getElem?_getD, h0, Option.getD_some]
      have hmem : c ∈ s.f.clauses := by
        apply List.mem_of_mem_drop (n := ci)
        rw [hdrop]
        exact List.mem_cons_self _ _
      obtain ⟨hs2, hf2⟩ := init_clause_settled s s2 hs ci c hget (hwf c hmem) hic
      have hdrop2 : s2.f.clauses.drop (ci + 1) = rest := by
        rw [hf2, ← List.drop_drop, hdrop]
        rfl
      obtain ⟨hs1, hf1⟩ := ih (ci + 1) s2 s1 hs2 (hf2 ▸ hwf) hdrop2 h
      exact ⟨hs1, hf1.trans hf2⟩

/-- The state handed to the search by a well-formed formula is settled. -/
theorem solver_init_settled (f : Formula) (hwf : WellFormed f) (s : Solver)
    (h : solver_init f = some s) : Settled s ∧ s.f = f := by
  unfold solver_init at h
  exact init_watches_settled f.clauses 0 (solver_new f) s (solver_new_settled f) hwf rfl h

/-! ## Assigning and rewinding -/

theorem getD_append_last {β : Type} (xs : List β) (x d : β) :
    (xs ++ [x]).getD ((xs ++ [x]).length - 1) d = x := by
  simp [List.getD_eq_getElem?_getD]

theorem set_zero_of_getD_zero (a : List Int) (v : Nat) (h : a.getD v 0 = 0) :
    a.set v 0 = a := by
  by_cases hv : v < a.length
  · rw [List.getD_eq_getElem _ _ hv] at h
    apply List.ext_getElem (by simp)
    intro i h1 h2
    rw [List.getElem_set]
    split
    · next hi => subst hi; exact h.symm
    · rfl
  · exact List.set_eq_of_length_le (by omega)

/-- One turn of the rewinding loop undoes an `enqueue_lit` that assigned. -/
theorem pop_trail_enqueue_lit (s : Solver) (l : Int) (hc : s.assign.getD (lit_var l) 0 = 0) :
    pop_trail (enqueue_lit s l).2 = s := by
  rw [enqueue_lit_of_unassigned s l hc]
  unfold pop_trail
  simp only [getD_append_last, List.dropLast_concat, List.set_set,
    set_zero_of_getD_zero _ _ hc]

theorem pop_trail_times_succ (n : Nat) (s : Solver) :
    pop_trail_times (n + 1) s = pop_trail (pop_trail_times n s) := by
  induction n generalizing s with
  | zero => rfl
  | succ n ih =>
    show pop_trail_times (n + 1) (pop_trail s) = _
    rw [ih (pop_trail s)]
    rfl

theorem enqueue_lit_trail_length_le (s : Solver) (l : Int) :
    s.trail.length ≤ (enqueue_lit s l).2.trail.length := by
  by_cases hc : s.assign.getD (lit_var l) 0 = 0
  · rw [enqueue_lit_of_unassigned s l hc]; simp
  · rw [enqueue_lit_of_assigned s l hc]

theorem enqueue_all_trail_length_le (ls : List Int) :
    ∀ s : Solver, s.trail.length ≤ (enqueue_all ls s).trail.length := by
  induction ls with
  | nil => intro s; exact Nat.le_refl _
  | cons l ls ih =>
    intro s
    exact Nat.le_trans (enqueue_lit_trail_length_le s l) (ih _)

theorem rewind_trail_self (s : Solver) : rewind_trail s.trail.length s = s := by
  unfold rewind_trail
  rw [Nat.sub_self]
  rfl

theorem rewind_enqueue_all (ls : List Int) :
    ∀ s : Solver, rewind_trail s.trail.length (enqueue_all ls s) = s := by
  induction ls with
  | nil => intro s; exact rewind_trail_self s
  | cons l ls ih =>
    intro s
    show rewind_trail s.trail.length (enqueue_all ls (enqueue_lit s l).2) = s
    by_cases hc : s.assign.getD (lit_var l) 0 = 0
    · have hlen : (enqueue_lit s l).2.trail.length = s.trail.length + 1 := by
        rw [enqueue_lit_of_unassigned s l hc]; simp
      have hle := enqueue_all_trail_length_le ls (enqueue_lit s l).2
      have hih := ih (enqueue_lit s l).2
      unfold rewind_trail at hih ⊢
      have hk : (enqueue_all ls (enqueue_lit s l).2).trail.length - s.trail.length =
          ((enqueue_all ls (enqueue_lit s l).2).trail.length -
            (enqueue_lit s l).2.trail.length) + 1 := by omega
      rw [hk, pop_trail_times_succ, hih, pop_trail_enqueue_lit s l hc]
    · have hs : (enqueue_lit s l).2 = s := by rw [enqueue_lit_of_assigned s l hc]
      rw [hs]
      exact ih s

/-- C19. Whatever the state `s` and the sequence of `enqueue_lit` calls applied
to it, rewinding the trail to the length it had in `s` gives back the
assignment array and the trail of `s` (the whole state, in fact). -/
theorem rewind_restores_state (s : Solver) (ls : List Int) :
    (rewind_trail s.trail.length (enqueue_all ls s)).assign = s.assign ∧
    (rewind_trail s.trail.length (enqueue_all ls s)).trail = s.trail ∧
    rewind_trail s.trail.length (enqueue_all ls s) = s := by
  rw [rewind_enqueue_all ls s]
  exact ⟨rfl, rfl, rfl⟩

/-- C17. `enqueue_lit` on a literal whose variable has a cell in the assignment
array: on an assigned variable the answer is `true` exactly when the stored
value is the sign of the literal, and assignment and trail are left as they
are; on an unassigned variable the answer is `true`, the cell of the variable
receives the sign, the literal becomes the last trail entry and no other cell
or trail entry changes. -/
theorem enqueue_lit_contract (s : Solver) (l : Int) (hv : lit_var l < s.assign.length) :
    (s.assign.getD (lit_var l) 0 ≠ 0 →
      ((enqueue_lit s l).1 = true ↔ s.assign.getD (lit_var l) 0 = (if l > 0 then 1 else -1)) ∧
      (enqueue_lit s l).2.assign = s.assign ∧ (enqueue_lit s l).2.trail = s.trail) ∧
    (s.assign.getD (lit_var l) 0 = 0 →
      (enqueue_lit s l).1 = true ∧
      (enqueue_lit s l).2.assign.getD (lit_var l) 0 = (if l > 0 then 1 else -1) ∧
      (enqueue_lit s l).2.trail = s.trail ++ [l] ∧
      (enqueue_lit s l).2.assign.length = s.assign.length ∧
      ∀ u, u ≠ lit_var l → (enqueue_lit s l).2.assign.getD u 0 = s.assign.getD u 0) := by
  constructor
  · intro hc
    rw [enqueue_lit_of_assigned s l hc]
    exact ⟨by simp only [decide_eq_true_eq], rfl, rfl⟩
  · intro hc
    rw [enqueue_lit_of_unassigned s l hc]
    refine ⟨rfl, getD_set_self _ _ _ _ hv, rfl, by simp, ?_⟩
    intro u hu
    exact getD_set_of_ne _ _ _ _ _ (fun h => hu h.symm)

/-- C17 on the state `assign = [0, 1, 0]`, `trail = [1]` with the literals `-1`
(assigned, opposite sign) and `-2` (unassigned). -/
theorem enqueue_lit_contract_witness :
    lit_var (-2) < ({ (solver_new (parse_formula 2 [])) with
        assign := [0, 1, 0], trail := [1] } : Solver).assign.length ∧
    (enqueue_lit { (solver_new (parse_formula 2 [])) with assign := [0, 1, 0], trail := [1] }
        (-2)).2.trail = [1, -2] ∧
    (enqueue_lit { (solver_new (parse_formula 2 [])) with assign := [0, 1, 0], trail := [1] }
        (-2)).2.assign = [0, 1, -1] ∧
    (enqueue_lit { (solver_new (parse_formula 2 [])) with assign := [0, 1, 0], trail := [1] }
        (-1)).1 = false :=
  ⟨by decide,
   ((enqueue_lit_contract { (solver_new (parse_formula 2 [])) with
      assign := [0, 1, 0], trail := [1] } (-2) (by decide)).2 (by decide)).2.2.1,
   by decide, by decide⟩

/-! ## Trail and assignment agree -/

theorem lit_value_ne_zero_iff (a : List Int) (l : Int) :
    lit_value a l ≠ 0 ↔ a.getD (lit_var l) 0 ≠ 0 := by
  unfold lit_value
  split <;> simp

theorem solver_new_consistent (f : Formula) : Consistent (solver_new f) := by
  refine ⟨by simp [solver_new], by simp [solver_new], ?_⟩
  intro v hv
  exfalso
  apply hv
  simp only [solver_new, List.getD_eq_getElem?_getD, List.getElem?_replicate]
  split <;> rfl

theorem enqueue_lit_consistent (s : Solver) (l : Int) (hs : Consistent s)
    (hv : lit_var l < s.assign.length) : Consistent (enqueue_lit s l).2 := by
  by_cases hc : s.assign.getD (lit_var l) 0 = 0
  · have hok : (enqueue_lit s l).1 = true := by rw [enqueue_lit_of_unassigned s l hc]
    have hlast := enqueue_lit_true_after s l hv hok
    have hkeep := enqueue_lit_keeps_assigned s l
    have hnot : lit_var l ∉ s.trail.map lit_var := by
      intro hmem
      obtain ⟨x, hx, hxv⟩ := List.mem_map.mp hmem
      have h1 := hs.trail_true x hx
      have h2 : s.assign.getD (lit_var x) 0 ≠ 0 :=
        (lit_value_ne_zero_iff _ _).mp (by rw [h1]; decide)
      rw [hxv] at h2
      exact h2 hc
    rw [enqueue_lit_of_unassigned s l hc] at hlast hkeep ⊢
    refine ⟨?_, ?_, ?_⟩
    · intro x hx
      rcases List.mem_append.mp hx with hx | hx
      · have h1 := hs.trail_true x hx
        rw [hkeep x (by rw [h1]; decide), h1]
      · rw [List.mem_singleton.mp hx]
        exact hlast
    · simp only [List.map_append, List.map_cons, List.map_nil]
      rw [List.nodup_append]
      refine ⟨hs.distinct, List.nodup_singleton _, ?_⟩
      intro x hx1 hx2
      rw [List.mem_singleton.mp hx2] at hx1
      exact hnot hx1
    · intro u hu
      simp only [List.map_append, List.map_cons, List.map_nil, List.mem_append,
        List.mem_singleton]
      by_cases huv : u = lit_var l
      · exact Or.inr huv
      · left
        apply hs.on_trail
        simp only [getD_set_of_ne _ _ _ _ _ (fun h => huv h.symm)] at hu
        exact hu
  · rw [enqueue_lit_of_assigned s l hc]
    exact hs

theorem getD_set_zero_self (a : List Int) (v : Nat) : (a.set v 0).getD v 0 = 0 := by
  by_cases hv : v < a.length
  · exact getD_set_self _ _ _ _ hv
  · rw [List.set_eq_of_length_le (by omega), List.getD_eq_default _ _ (by omega)]

theorem pop_trail_consistent (s : Solver) (hs : Consistent s) (hne : s.trail ≠ []) :
    Consistent (pop_trail s) := by
  obtain ⟨pre, x, hx⟩ : ∃ pre x, s.trail = pre ++ [x] :=
    ⟨s.trail.dropLast, s.trail.getLast hne, (List.dropLast_append_getLast hne).symm⟩
  have hd := hs.distinct
  rw [hx, List.map_append, List.map_cons, List.map_nil, List.nodup_append] at hd
  obtain ⟨hdpre, _, hdis⟩ := hd
  have hxnot : ∀ y ∈ pre, lit_var x ≠ lit_var y := by
    intro y hy heq
    exact hdis (List.mem_map.mpr ⟨y, hy, heq.symm⟩) (List.mem_singleton.mpr rfl)
  unfold pop_trail
  rw [hx]
  simp only [getD_append_last, List.dropLast_concat]
  refine ⟨?_, hdpre, ?_⟩
  · intro y hy
    have h1 := hs.trail_true y (by rw [hx]; exact List.mem_append_left _ hy)
    unfold lit_value at h1 ⊢
    simp only [getD_set_of_ne _ _ _ _ _ (hxnot y hy)]
    exact h1
  · intro u hu
    by_cases hux : u = lit_var x
    · subst hux
      exact absurd (getD_set_zero_self _ _) hu
    · simp only [getD_set_of_ne _ _ _ _ _ (fun h => hux h.symm)] at hu
      have := hs.on_trail u hu
      rw [hx, List.map_append, List.map_cons, List.map_nil, List.mem_append,
        List.mem_singleton] at this
      rcases this with h | h
      · exact h
      · exact absurd h hux

theorem pop_trail_trail_length (s : Solver) :
    (pop_trail s).trail.length = s.trail.length - 1 := by
  simp [pop_trail]

theorem pop_trail_times_consistent (n : Nat) :
    ∀ s : Solver, Consistent s → n ≤ s.trail.length → Consistent (pop_trail_times n s) := by
  induction n with
  | zero => intro s hs _; exact hs
  | succ n ih =>
    intro s hs hn
    have hne : s.trail ≠ [] := by
      intro h
      rw [h] at hn
      simp at hn
    exact ih (pop_trail s) (pop_trail_consistent s hs hne)
      (by rw [pop_trail_trail_length]; omega)

theorem rewind_trail_consistent (s : Solver) (back : Nat) (hs : Consistent s) :
    Consistent (rewind_trail back s) :=
  pop_trail_times_consistent _ s hs (Nat.sub_le _ _)

/-- C18. Trail/assignment consistency (every trail literal is true, the trail
variables are pairwise distinct, every assigned variable is on the trail) holds
in the empty initial state, is kept by `enqueue_lit` on a literal whose variable
has a cell in the assignment array, and is kept by the rewinding loop of
`cdcl_solve` and `dpll_solve` for every target length. -/
theorem consistency_invariant :
    (∀ f : Formula, Consistent (solver_new f)) ∧
    (∀ (s : Solver) (l : Int), Consistent s → lit_var l < s.assign.length →
      Consistent (enqueue_lit s l).2) ∧
    (∀ (s : Solver) (back : Nat), Consistent s → Consistent (rewind_trail back s)) :=
  ⟨solver_new_consistent, fun s l hs hv => enqueue_lit_consistent s l hs hv,
    fun s back hs => rewind_trail_consistent s back hs⟩

/-- C18 on the empty state over two variables: enqueueing `-2` and rewinding
to length `0` keep the state consistent. -/
theorem consistency_invariant_witness :
    Consistent (solver_new (parse_formula 2 [])) ∧
    lit_var (-2) < (solver_new (parse_formula 2 [])).assign.length ∧
    Consistent (enqueue_lit (solver_new (parse_formula 2 [])) (-2)).2 ∧
    Consistent (rewind_trail 0 (enqueue_lit (solver_new (parse_formula 2 [])) (-2)).2) :=
  ⟨consistency_invariant.1 _, by decide,
   consistency_invariant.2.1 _ _ (consistency_invariant.1 _) (by decide),
   consistency_invariant.2.2 _ 0
     (consistency_invariant.2.1 _ _ (consistency_invariant.1 _) (by decide))⟩

/-! ## The branching variable -/

/-- The scan of `pick_branch_var` over the variables `1..m`: the pair it holds
is either the start pair with every variable so far assigned, or an unassigned
variable with its activity, which no unassigned variable so far exceeds and no
earlier unassigned variable reaches. -/
theorem pick_scan_invariant (s : Solver)
    (hact : ∀ v, 1 ≤ v → v ≤ s.f.n_vars → 0 ≤ s.var_act.getD v 0) (m : Nat)
    (hm : m ≤ s.f.n_vars) :
    ∀ acc : Nat × ℚ,
      acc = (List.range m).foldl
        (fun (acc : Nat × ℚ) i =>
          if s.assign.getD (i + 1) 0 = 0 ∧ s.var_act.getD (i + 1) 0 > acc.2
          then (i + 1, s.var_act.getD (i + 1) 0) else acc) (0, -1) →
      (acc.1 = 0 ∧ acc.2 = -1 ∧ ∀ u, 1 ≤ u → u ≤ m → s.assign.getD u 0 ≠ 0) ∨
      (1 ≤ acc.1 ∧ acc.1 ≤ m ∧ s.assign.getD acc.1 0 = 0 ∧ acc.2 = s.var_act.getD acc.1 0 ∧
        (∀ u, 1 ≤ u → u ≤ m → s.assign.getD u 0 = 0 → s.var_act.getD u 0 ≤ acc.2) ∧
        (∀ u, 1 ≤ u → u < acc.1 → s.assign.getD u 0 = 0 → s.var_act.getD u 0 < acc.2)) := by
  induction m with
  | zero =>
    intro acc hacc
    left
    rw [hacc]
    exact ⟨rfl, rfl, fun u h1 h2 => by omega⟩
  | succ m ih =>
    intro acc hacc
    rw [List.range_succ, List.foldl_append, List.foldl_cons, List.foldl_nil] at hacc
    have hprev := ih (by omega) _ rfl
    generalize (List.range m).foldl
        (fun (acc : Nat × ℚ) i =>
          if s.assign.getD (i + 1) 0 = 0 ∧ s.var_act.getD (i + 1) 0 > acc.2
          then (i + 1, s.var_act.getD (i + 1) 0) else acc) (0, -1) = prev at hacc hprev
    by_cases hc : s.assign.getD (m + 1) 0 = 0 ∧ s.var_act.getD (m + 1) 0 > prev.2
    · rw [if_pos hc] at hacc
      rw [hacc]
      right
      refine ⟨by simp, by simp, hc.1, rfl, ?_, ?_⟩
      · intro u h1 h2 hu
        by_cases hum : u = m + 1
        · rw [hum]
        · rcases hprev with ⟨_, _, hall⟩ | ⟨_, _, _, _, hmax, _⟩
          · exact absurd hu (hall u h1 (by omega))
          · exact le_of_lt (lt_of_le_of_lt (hmax u h1 (by omega) hu) hc.2)
      · intro u h1 h2 hu
        have h2' : u < m + 1 := h2
        rcases hprev with ⟨_, _, hall⟩ | ⟨_, _, _, _, hmax, _⟩
        · exact absurd hu (hall u h1 (by omega))
        · exact lt_of_le_of_lt (hmax u h1 (by omega) hu) hc.2
    · rw [if_neg hc] at hacc
      rw [hacc]
      rcases hprev with ⟨h0, hba, hall⟩ | ⟨hb1, hbm, hbu, hba, hmax, hlow⟩
      · left
        refine ⟨h0, hba, ?_⟩
        intro u h1 h2
        by_cases hum : u = m + 1
        · rw [hum]
          intro hz
          apply hc
          refine ⟨hz, ?_⟩
          rw [hba]
          have := hact (m + 1) (by omega) hm
          exact lt_of_lt_of_le (by norm_num) this
        · exact hall u h1 (by omega)
      · right
        refine ⟨hb1, by omega, hbu, hba, ?_, hlow⟩
        intro u h1 h2 hu
        by_cases hum : u = m + 1
        · rw [hum] at hu ⊢
          by_contra hgt
          exact hc ⟨hu, lt_of_not_le hgt⟩
        · exact hmax u h1 (by omega) hu

/-- C20. On a state whose activities are non-negative, `pick_branch_var` returns
`0` exactly when every variable in `1..n_vars` is assigned; otherwise it returns
an unassigned variable in `1..n_vars` whose activity no unassigned variable
exceeds and no unassigned variable of lower index reaches. -/
theorem pick_branch_var_contract (s : Solver)
    (hact : ∀ v, 1 ≤ v → v ≤ s.f.n_vars → 0 ≤ s.var_act.getD v 0) :
    (pick_branch_var s = 0 ↔ ∀ v, 1 ≤ v → v ≤ s.f.n_vars → s.assign.getD v 0 ≠ 0) ∧
    (pick_branch_var s ≠ 0 →
      1 ≤ pick_branch_var s ∧ pick_branch_var s ≤ s.f.n_vars ∧
      s.assign.getD (pick_branch_var s) 0 = 0 ∧
      (∀ u, 1 ≤ u → u ≤ s.f.n_vars → s.assign.getD u 0 = 0 →
        s.var_act.getD u 0 ≤ s.var_act.getD (pick_branch_var s) 0) ∧
      (∀ u, 1 ≤ u → u < pick_branch_var s → s.assign.getD u 0 = 0 →
        s.var_act.getD u 0 < s.var_act.getD (pick_branch_var s) 0)) := by
  have h := pick_scan_invariant s hact s.f.n_vars (Nat.le_refl _) _ rfl
  unfold pick_branch_var
  generalize (List.range s.f.n_vars).foldl
      (fun (acc : Nat × ℚ) i =>
        if s.assign.getD (i + 1) 0 = 0 ∧ s.var_act.getD (i + 1) 0 > acc.2
        then (i + 1, s.var_act.getD (i + 1) 0) else acc) (0, -1) = acc at h
  rcases h with ⟨h0, _, hall⟩ | ⟨hb1, hbm, hbu, hba, hmax, hlow⟩
  · exact ⟨⟨fun _ => hall, fun _ => h0⟩, fun hne => absurd h0 hne⟩
  · refine ⟨⟨fun h0 => by omega, fun hall => absurd hbu (hall _ hb1 hbm)⟩, ?_⟩
    intro _
    rw [← hba]
    exact ⟨hb1, hbm, hbu, hmax, hlow⟩

/-- C20 on three unassigned variables with activities `1`, `2`, `2`: the
variable returned is `2`, the first of the two of highest activity. -/
theorem pick_branch_var_contract_witness :
    (∀ v, 1 ≤ v → v ≤ ({ (solver_new (parse_formula 3 [])) with
        var_act := [0, 1, 2, 2] } : Solver).f.n_vars →
      0 ≤ ({ (solver_new (parse_formula 3 [])) with
        var_act := [0, 1, 2, 2] } : Solver).var_act.getD v 0) ∧
    pick_branch_var { (solver_new (parse_formula 3 [])) with var_act := [0, 1, 2, 2] } = 2 ∧
    (pick_branch_var { (solver_new (parse_formula 3 [])) with var_act := [0, 1, 2, 2] } = 0 ↔
      ∀ v, 1 ≤ v → v ≤ ({ (solver_new (parse_formula 3 [])) with
          var_act := [0, 1, 2, 2] } : Solver).f.n_vars →
        ({ (solver_new (parse_formula 3 [])) with
          var_act := [0, 1, 2, 2] } : Solver).assign.getD v 0 ≠ 0) :=
  ⟨fun v h1 h2 => by
      have h3 : v ≤ 3 := h2
      interval_cases v <;> decide,
   by decide,
   (pick_branch_var_contract { (solver_new (parse_formula 3 [])) with var_act := [0, 1, 2, 2] }
      (fun v h1 h2 => by
        have h3 : v ≤ 3 := h2
        interval_cases v <;> decide)).1⟩

/-! ## Propagation changes nothing -/

theorem unit_propagation_loop_quiet (s : Solver)
    (ht : ∀ l ∈ s.trail, lit_value s.assign l = 1)
    (hw : ∀ l, ∀ e ∈ watch_list s l, entry_lit s e = l)
    (hshort : ∀ l ∈ s.trail, (watch_list s l).length < stride) :
    ∀ (fuel head : Nat), 0 < fuel → s.trail.length < head + fuel →
      unit_propagation_loop fuel head s = some (true, s) := by
  intro fuel
  induction fuel with
  | zero =>
    intro head h0 _
    exact absurd h0 (Nat.lt_irrefl 0)
  | succ fuel ih =>
    intro head _ h
    unfold unit_propagation_loop
    by_cases hh : head < s.trail.length
    · have hmem : s.trail.getD head 0 ∈ s.trail := by
        rw [List.getD_eq_getElem _ _ hh]
        exact List.getElem_mem _
      have hscan : watch_scan_update_simd s (s.trail.getD head 0) = some (true, s) := by
        unfold watch_scan_update_simd
        rw [if_neg (Nat.not_le.mpr (hshort _ hmem))]
        apply watch_scan_entries_of_true
        intro e he
        rw [hw _ e he]
        exact ht _ hmem
      simp only [hh, if_true, hscan]
      exact ih (head + 1) (by omega) (by omega)
    · simp only [hh, if_false]

/-! ## The clause loop succeeds -/

theorem init_clause_isSome (s : Solver) (ci : Nat) (c : Clause) (hne : c.lits ≠ [])
    (hu : c.lits.length = 1 → (enqueue_lit s (c.lits.getD 0 0)).1 = true) :
    ∃ s1, init_clause s ci c = some s1 := by
  have hlen : ¬ c.lits.length = 0 := fun h => hne (List.length_eq_zero.mp h)
  unfold init_clause
  by_cases h1 : c.lits.length = 1
  · simp only [hlen, if_false, h1, if_true, hu h1]
    exact ⟨_, rfl⟩
  · simp only [hlen, if_false, h1, if_true]
    exact ⟨_, rfl⟩

theorem enqueue_unit_backed (f : Formula) (s : Solver) (l : Int)
    (hunit : ∃ c ∈ f.clauses, c.lits = [l]) (hnc : NoComplementaryUnits f)
    (hb : UnitBacked f s.assign) :
    (enqueue_lit s l).1 = true ∧ UnitBacked f (enqueue_lit s l).2.assign := by
  have hvl : l > 0 → ((lit_var l : Nat) : Int) = l := by
    intro h; unfold lit_var; omega
  have hvn : ¬ l > 0 → -((lit_var l : Nat) : Int) = l := by
    intro h; unfold lit_var; omega
  rcases hb (lit_var l) with hc | ⟨hc, hu⟩ | ⟨hc, hu⟩
  · rw [enqueue_lit_of_unassigned s l hc]
    refine ⟨rfl, ?_⟩
    intro u
    by_cases huv : u = lit_var l
    · subst huv
      by_cases hlt : lit_var l < s.assign.length
      · show (s.assign.set (lit_var l) (if l > 0 then 1 else -1)).getD (lit_var l) 0 = 0 ∨ _
        rw [getD_set_self _ _ _ _ hlt]
        by_cases hpos : l > 0
        · rw [if_pos hpos]
          exact Or.inr (Or.inl ⟨rfl, by rw [hvl hpos]; exact hunit⟩)
        · rw [if_neg hpos]
          exact Or.inr (Or.inr ⟨rfl, by rw [hvn hpos]; exact hunit⟩)
      · simp only [List.set_eq_of_length_le (Nat.le_of_not_lt hlt)]
        exact hb _
    · simp only [getD_set_of_ne _ _ _ _ _ (fun h => huv h.symm)]
      exact hb u
  · have hne : s.assign.getD (lit_var l) 0 ≠ 0 := by rw [hc]; decide
    rw [enqueue_lit_of_assigned s l hne]
    refine ⟨?_, hb⟩
    by_cases hpos : l > 0
    · simp only [hpos, if_true, hc, decide_True]
    · exfalso
      apply hnc
      refine ⟨(lit_var l : Int), hu, ?_⟩
      rw [hvn hpos]
      exact hunit
  · have hne : s.assign.getD (lit_var l) 0 ≠ 0 := by rw [hc]; decide
    rw [enqueue_lit_of_assigned s l hne]
    refine ⟨?_, hb⟩
    by_cases hpos : l > 0
    · exfalso
      apply hnc
      refine ⟨(lit_var l : Int), ?_, hu⟩
      rw [hvl hpos]
      exact hunit
    · simp only [hpos, if_false, hc, decide_True]

theorem init_watches_succeeds (cls : List Clause) :
    ∀ (ci : Nat) (s : Solver), (∀ c ∈ cls, c ∈ s.f.clauses) → (∀ c ∈ cls, c.lits ≠ []) →
      NoComplementaryUnits s.f → UnitBacked s.f s.assign →
      ∃ s1, init_watches cls ci s = some s1 := by
  induction cls with
  | nil => intro ci s _ _ _ _; exact ⟨s, rfl⟩
  | cons c rest ih =>
    intro ci s hsub hne hnc hb
    have hc := hsub c (List.mem_cons_self _ _)
    have hunit : c.lits.length = 1 →
        (enqueue_lit s (c.lits.getD 0 0)).1 = true ∧
          UnitBacked s.f (enqueue_lit s (c.lits.getD 0 0)).2.assign := by
      intro h1
      obtain ⟨l, hl⟩ := List.length_eq_one.mp h1
      rw [hl, List.getD_cons_zero]
      exact enqueue_unit_backed s.f s l ⟨c, hc, hl⟩ hnc hb
    obtain ⟨s2, hs2⟩ := init_clause_isSome s ci c (hne c (List.mem_cons_self _ _))
      (fun h1 => (hunit h1).1)
    obtain ⟨_, hf, hcases⟩ := init_clause_some s s2 ci c hs2
    have hb2 : UnitBacked s2.f s2.assign := by
      rw [hf]
      rcases hcases with ⟨l, hl, _, ha, _⟩ | ⟨_, ha, _⟩
      · rw [ha]
        have := (hunit (by rw [hl]; rfl)).2
        rw [hl, List.getD_cons_zero] at this
        exact this
      · rw [ha]; exact hb
    obtain ⟨s1, hs1⟩ := ih (ci + 1) s2
      (fun c' hc' => by rw [hf]; exact hsub c' (List.mem_cons_of_mem _ hc'))
      (fun c' hc' => hne c' (List.mem_cons_of_mem _ hc'))
      (by rw [hf]; exact hnc) hb2
    refine ⟨s1, ?_⟩
    unfold init_watches
    rw [hs2]
    exact hs1

theorem solver_new_unit_backed (f : Formula) : UnitBacked f (solver_new f).assign := by
  intro v
  left
  simp only [solver_new, List.getD_eq_getElem?_getD, List.getElem?_replicate]
  split <;> rfl

/-! ## The watch lists after the clause loop -/

theorem cdcl_loop_succ (pfuel fuel : Nat) (s : Solver) :
    cdcl_loop pfuel (fuel + 1) s =
      match cdcl_iteration pfuel s with
      | .ret b s1 => some (b, s1)
      | .next s1 => cdcl_loop pfuel fuel s1
      | .stuck => none
      | .fault => none := by
  rw [cdcl_loop]
  unfold cdcl_iteration
  simp only
  by_cases hv : pick_branch_var s = 0
  · simp only [hv, if_true]
  · simp only [hv, if_false]
    by_cases hcap : dl_stack_cap ≤ s.dl_stack.length
    · simp only [hcap, if_true]
    simp only [hcap, if_false]
    by_cases hr : (enqueue_lit { s with dl_stack := s.dl_stack ++ [s.trail.length] }
        (branch_lit s (pick_branch_var s))).1 = true
    · simp only [hr, if_true]
      cases hp : unit_propagation_simd pfuel
          (enqueue_lit { s with dl_stack := s.dl_stack ++ [s.trail.length] }
            (branch_lit s (pick_branch_var s))).2 with
      | none => rfl
      | some r =>
        obtain ⟨b, s2⟩ := r
        cases b with
        | true => rfl
        | false =>
          simp only
          by_cases hd : s2.dl_stack.length = 0
          · simp only [hd, if_true]
          · simp only [hd, if_false]
            by_cases hr2 : (enqueue_lit
                (rewind_trail (s2.dl_stack.getD (s2.dl_stack.length - 1) 0)
                  { s2 with dl_stack := s2.dl_stack.dropLast })
                (-branch_lit s (pick_branch_var s))).1 = true
            · simp only [hr2, if_true]
              cases hp2 : unit_propagation_simd pfuel
                  (enqueue_lit
                    (rewind_trail (s2.dl_stack.getD (s2.dl_stack.length - 1) 0)
                      { s2 with dl_stack := s2.dl_stack.dropLast })
                    (-branch_lit s (pick_branch_var s))).2 with
              | none => rfl
              | some r2 =>
                obtain ⟨b2, s5⟩ := r2
                cases b2 <;> rfl
            · simp only [hr2, Bool.false_eq_true, if_false]
    · simp only [hr, Bool.false_eq_true, if_false]

theorem enqueue_lit_grows (s : Solver) (l : Int) :
    s.trail <+: (enqueue_lit s l).2.trail ∧ (enqueue_lit s l).2.dl_stack = s.dl_stack := by
  by_cases hc : s.assign.getD (lit_var l) 0 = 0
  · rw [enqueue_lit_of_unassigned s l hc]
    exact ⟨List.prefix_append _ _, rfl⟩
  · rw [enqueue_lit_of_assigned s l hc]
    exact ⟨List.prefix_refl _, rfl⟩

theorem watch_visit_grows (s s1 : Solver) (ci wp : Nat) (b : Bool)
    (h : watch_visit s ci wp = some (b, s1)) :
    s.trail <+: s1.trail ∧ s1.dl_stack = s.dl_stack := by
  unfold watch_visit at h
  simp only at h
  repeat' split at h
  all_goals first
    | exact Option.noConfusion h
    | (simp only [Option.some.injEq, Prod.mk.injEq] at h
       rw [← h.2]
       first
         | exact ⟨List.prefix_refl _, rfl⟩
         | exact enqueue_lit_grows s _)

theorem watch_scan_entries_grows (es : List (Nat × Nat)) :
    ∀ (s s1 : Solver) (b : Bool), watch_scan_entries es s = some (b, s1) →
      s.trail <+: s1.trail ∧ s1.dl_stack = s.dl_stack := by
  induction es with
  | nil =>
    intro s s1 b h
    simp only [watch_scan_entries, Option.some.injEq, Prod.mk.injEq] at h
    rw [← h.2]
    exact ⟨List.prefix_refl _, rfl⟩
  | cons e es ih =>
    intro s s1 b h
    obtain ⟨ci, wp⟩ := e
    unfold watch_scan_entries at h
    cases hv : watch_visit s ci wp with
    | none => rw [hv] at h; exact Option.noConfusion h
    | some r =>
      obtain ⟨b2, s2⟩ := r
      rw [hv] at h
      have h2 := watch_visit_grows s s2 ci wp b2 hv
      cases b2 with
      | false =>
        simp only [Option.some.injEq, Prod.mk.injEq] at h
        rw [← h.2]
        exact h2
      | true =>
        simp only at h
        have h3 := ih s2 s1 b h
        exact ⟨h2.1.trans h3.1, h3.2.trans h2.2⟩

theorem unit_propagation_loop_grows (fuel : Nat) :
    ∀ (head : Nat) (s s1 : Solver) (b : Bool),
      unit_propagation_loop fuel head s = some (b, s1) →
      s.trail <+: s1.trail ∧ s1.dl_stack = s.dl_stack := by
  induction fuel with
  | zero =>
    intro head s s1 b h
    exact Option.noConfusion h
  | succ fuel ih =>
    intro head s s1 b h
    unfold unit_propagation_loop at h
    split at h
    · cases hv : watch_scan_update_simd s (s.trail.getD head 0) with
      | none => rw [hv] at h; exact Option.noConfusion h
      | some r =>
        obtain ⟨b2, s2⟩ := r
        rw [hv] at h
        unfold watch_scan_update_simd at hv
        split at hv
        · exact Option.noConfusion hv
        have h2 := watch_scan_entries_grows _ s s2 b2 hv
        cases b2 with
        | false =>
          simp only [Option.some.injEq, Prod.mk.injEq] at h
          rw [← h.2]
          exact h2
        | true =>
          simp only at h
          have h3 := ih (head + 1) s2 s1 b h
          exact ⟨h2.1.trans h3.1, h3.2.trans h2.2⟩
    · simp only [Option.some.injEq, Prod.mk.injEq] at h
      rw [← h.2]
      exact ⟨List.prefix_refl _, rfl⟩

/-- Propagation only appends to the trail and leaves the decision stack alone. -/
theorem unit_propagation_simd_grows (fuel : Nat) (s s1 : Solver) (b : Bool)
    (h : unit_propagation_simd fuel s = some (b, s1)) :
    s.trail <+: s1.trail ∧ s1.dl_stack = s.dl_stack :=
  unit_propagation_loop_grows fuel 0 s s1 b h

theorem pop_trail_keeps_zero (s : Solver) (i : Nat) (h : s.assign.getD i 0 = 0) :
    (pop_trail s).assign.getD i 0 = 0 := by
  unfold pop_trail
  simp only
  by_cases hi : lit_var (s.trail.getD (s.trail.length - 1) 0) = i
  · rw [hi]; exact getD_set_zero_self _ _
  · rw [getD_set_of_ne _ _ _ _ _ hi]; exact h

theorem pop_trail_times_keeps_zero (n : Nat) :
    ∀ (s : Solver) (i : Nat), s.assign.getD i 0 = 0 →
      (pop_trail_times n s).assign.getD i 0 = 0 := by
  induction n with
  | zero => intro s i h; exact h
  | succ n ih =>
    intro s i h
    exact ih (pop_trail s) i (pop_trail_keeps_zero s i h)

/-- Rewinding a tail off the trail leaves the front, clears the variables of
the tail and keeps the decision stack. -/
theorem pop_trail_times_tail (n : Nat) :
    ∀ (ext pre : List Int) (s : Solver), ext.length = n → s.trail = pre ++ ext →
      (pop_trail_times n s).trail = pre ∧
      (pop_trail_times n s).dl_stack = s.dl_stack ∧
      ∀ x ∈ ext, (pop_trail_times n s).assign.getD (lit_var x) 0 = 0 := by
  induction n with
  | zero =>
    intro ext pre s hlen htr
    have : ext = [] := List.length_eq_zero.mp hlen
    subst this
    exact ⟨by simpa using htr, rfl, fun x hx => absurd hx (List.not_mem_nil x)⟩
  | succ n ih =>
    intro ext pre s hlen htr
    have hne : ext ≠ [] := by
      intro h0
      rw [h0] at hlen
      exact Nat.succ_ne_zero n hlen.symm
    have hsplit := (List.dropLast_append_getLast hne).symm
    generalize ext.dropLast = ext1 at hsplit
    generalize ext.getLast hne = y at hsplit
    subst hsplit
    have hlen1 : ext1.length = n := by simpa using hlen
    have htr2 : s.trail = (pre ++ ext1) ++ [y] := by rw [htr, List.append_assoc]
    have hpt : (pop_trail s).trail = pre ++ ext1 := by
      unfold pop_trail
      simp only [htr2, List.dropLast_concat]
    have hpz : (pop_trail s).assign.getD (lit_var y) 0 = 0 := by
      unfold pop_trail
      simp only [htr2, getD_append_last]
      exact getD_set_zero_self _ _
    obtain ⟨h1, h2, h3⟩ := ih ext1 pre (pop_trail s) hlen1 hpt
    refine ⟨h1, h2, ?_⟩
    intro x hx
    rcases List.mem_append.mp hx with hx | hx
    · exact h3 x hx
    · rw [List.mem_singleton.mp hx]
      exact pop_trail_times_keeps_zero n (pop_trail s) _ hpz

theorem lit_var_neg (l : Int) : lit_var (-l) = lit_var l := by
  unfold lit_var
  exact Int.natAbs_neg l

/-- A turn of the search loop that goes on leaves the trail strictly longer,
whatever the state and whether or not the turn backtracked. -/
theorem cdcl_iteration_lengthens (pfuel : Nat) (s s1 : Solver)
    (h : cdcl_iteration pfuel s = .next s1) : s.trail.length < s1.trail.length := by
  unfold cdcl_iteration at h
  simp only at h
  rcases pick_branch_var_spec s with h0 | ⟨hv1, hvn, hcur⟩
  · simp only [h0, if_true] at h
    exact Turn.noConfusion h
  · have hv0 : pick_branch_var s ≠ 0 := by omega
    have hcur0 : ({ s with dl_stack := s.dl_stack ++ [s.trail.length] } : Solver).assign.getD
        (lit_var (branch_lit s (pick_branch_var s))) 0 = 0 := by
      rw [lit_var_branch_lit]; exact hcur
    by_cases hcap : dl_stack_cap ≤ s.dl_stack.length
    · simp only [hv0, if_false, hcap, if_true] at h
      exact Turn.noConfusion h
    simp only [hv0, if_false, hcap, enqueue_lit_of_unassigned _ _ hcur0, if_true] at h
    split at h
    · exact Turn.noConfusion h
    · next s2 hp =>
      have hs2 := Turn.next.inj h
      subst hs2
      have hg := (unit_propagation_simd_grows pfuel _ _ _ hp).1
      have := hg.length_le
      simp only [List.length_append, List.length_singleton] at this
      omega
    · next s2 hp =>
      obtain ⟨hg, hdl⟩ := unit_propagation_simd_grows pfuel _ _ _ hp
      simp only at hdl
      have hlen : ¬ s2.dl_stack.length = 0 := by rw [hdl]; simp
      have hback : s2.dl_stack.getD (s2.dl_stack.length - 1) 0 = s.trail.length := by
        rw [hdl]; exact getD_append_last _ _ _
      simp only [hlen, if_false, hback] at h
      obtain ⟨ext, hext⟩ := hg
      simp only at hext
      have htr : ({ s2 with dl_stack := s2.dl_stack.dropLast } : Solver).trail =
          s.trail ++ (branch_lit s (pick_branch_var s) :: ext) := by
        show s2.trail = _
        rw [← hext, List.append_assoc]
        rfl
      have hk : ({ s2 with dl_stack := s2.dl_stack.dropLast } : Solver).trail.length -
          s.trail.length = (branch_lit s (pick_branch_var s) :: ext).length := by
        rw [htr, List.length_append]
        omega
      obtain ⟨ht4, _, hz4⟩ := pop_trail_times_tail _ _ s.trail
        { s2 with dl_stack := s2.dl_stack.dropLast } rfl htr
      have hcur4 : (rewind_trail s.trail.length
          { s2 with dl_stack := s2.dl_stack.dropLast }).assign.getD
          (lit_var (-branch_lit s (pick_branch_var s))) 0 = 0 := by
        unfold rewind_trail
        rw [hk, lit_var_neg]
        exact hz4 _ (List.mem_cons_self _ _)
      have ht4' : (rewind_trail s.trail.length
          { s2 with dl_stack := s2.dl_stack.dropLast }).trail = s.trail := by
        unfold rewind_trail
        rw [hk]
        exact ht4
      simp only [enqueue_lit_of_unassigned _ _ hcur4, if_true] at h
      split at h
      · exact Turn.noConfusion h
      · exact Turn.noConfusion h
      · next s5 hp5 =>
        have hs5 := Turn.next.inj h
        subst hs5
        have hg5 := (unit_propagation_simd_grows pfuel _ _ _ hp5).1
        have := hg5.length_le
        simp only [ht4', List.length_append, List.length_singleton] at this
        omega

/-- On a settled state whose watch lists are short and whose decision stack has
a free cell, a turn of the search loop either returns `true` or goes on with
one more variable assigned and one more cell of the stack in use. -/
theorem cdcl_iteration_settled (pfuel : Nat) (s : Solver) (hs : Settled s)
    (hsl : ShortLists s) (hp : s.f.n_vars < pfuel)
    (hroom : s.dl_stack.length < dl_stack_cap) :
    cdcl_iteration pfuel s = .ret true s ∨
    ∃ s1, cdcl_iteration pfuel s = .next s1 ∧ Settled s1 ∧ ShortLists s1 ∧ s1.f = s.f ∧
      unassigned_count s1 + 1 = unassigned_count s ∧
      s1.dl_stack.length = s.dl_stack.length + 1 := by
  unfold cdcl_iteration
  rcases pick_branch_var_spec s with h0 | ⟨hv1, hvn, hcur⟩
  · left
    simp only [h0, if_true]
  · right
    have hv0 : pick_branch_var s ≠ 0 := by omega
    have hcap : ¬ dl_stack_cap ≤ s.dl_stack.length := by omega
    have hs0 := settled_dl_stack s hs (s.dl_stack ++ [s.trail.length])
    have hsl0 := short_lists_dl_stack s hsl (s.dl_stack ++ [s.trail.length])
    obtain ⟨hok, hs1, hcnt⟩ := enqueue_lit_settled _ hs0 (branch_lit s (pick_branch_var s))
      (branch_lit_ne_zero s _ hv1) (by rw [lit_var_branch_lit]; exact hvn)
      (by rw [lit_var_branch_lit]; exact hcur)
    have hsl1 := enqueue_lit_short_lists _ (branch_lit s (pick_branch_var s)) hsl0
    have hf : (enqueue_lit { s with dl_stack := s.dl_stack ++ [s.trail.length] }
        (branch_lit s (pick_branch_var s))).2.f = s.f := by rw [enqueue_lit_f]
    have hdl : (enqueue_lit { s with dl_stack := s.dl_stack ++ [s.trail.length] }
        (branch_lit s (pick_branch_var s))).2.dl_stack.length = s.dl_stack.length + 1 := by
      rw [enqueue_lit_dl_stack]; simp
    have hprop := unit_propagation_simd_settled _ hs1 hsl1 pfuel (by rw [hf]; exact hp)
    refine ⟨_, ?_, hs1, hsl1, hf, hcnt, hdl⟩
    simp only [hv0, if_false, hcap, hok, if_true, hprop]

/-- C13 fails on scenario S4: in the run of the entry point on
`(1 2) (-1 2) (1 -2) (-1 -2)`, the propagation that follows the second decision
returns `true` (no conflict) on a state in which the clause `(-1 -2)` has no
true literal and both its watched literals false. -/
theorem propagation_leaves_falsified_clause :
    ∃ s0 s1 s2 : Solver,
      solver_init (parse_formula 4 [[1, 2], [-1, 2], [1, -2], [-1, -2]]) = some s0 ∧
      unit_propagation_simd 5 s0 = some (true, s0) ∧
      cdcl_iteration 5 s0 = .next s1 ∧
      unit_propagation_simd 5
        (enqueue_lit { s1 with dl_stack := s1.dl_stack ++ [s1.trail.length] }
          (branch_lit s1 (pick_branch_var s1))).2 = some (true, s2) ∧
      cdcl_iteration 5 s1 = .next s2 ∧
      s2.trail = [1, 2] ∧
      s2.f.clauses.getD 3 default = { lits := [-1, -2], w0 := 0, w1 := 1 } ∧
      quiescent s2.assign false (s2.f.clauses.getD 3 default) = false :=
  ⟨_, _, _, rfl, by decide, rfl, rfl, by decide, by decide, by decide, by decide⟩

/-! ## Within the bounds of the buffers -/

/-- On a state in which every trail literal is true, every watch entry points
at the literal of its list and the lists of the trail literals have fewer than
`stride` entries, propagation returns `true` and changes nothing. -/
theorem unit_propagation_simd_quiet (s : Solver)
    (ht : ∀ l ∈ s.trail, lit_value s.assign l = 1)
    (hw : ∀ l, ∀ e ∈ watch_list s l, entry_lit s e = l)
    (hshort : ∀ l ∈ s.trail, (watch_list s l).length < stride)
    (fuel : Nat) (hfuel : s.trail.length < fuel) :
    unit_propagation_simd fuel s = some (true, s) :=
  unit_propagation_loop_quiet s ht hw hshort fuel 0 (by omega) (by omega)

/-- When the clause loop succeeds, the watch lists it built are short and the
decision stack has a cell for every unassigned variable, the entry point
returns `true`. -/
theorem solve_true_within_bounds (f : Formula) (hwf : WellFormed f) (s : Solver)
    (hs : solver_init f = some s) (hsl : ShortLists s)
    (hcap : s.dl_stack.length + unassigned_count s ≤ dl_stack_cap)
    (fuel : Nat) (hfuel : f.n_vars < fuel) :
    solve_cnf_dimacs fuel f = some true := by
  obtain ⟨hset, hf⟩ := solver_init_settled f hwf s hs
  obtain ⟨s1, h1⟩ := cdcl_solve_settled s hset hsl fuel (by rw [hf]; exact hfuel) hcap
  unfold solve_cnf_dimacs
  rw [hs]
  simp only [h1, Option.map_some']

/-! ## Past the bounds of the buffers -/

theorem unassigned_count_zero_of_pick (s : Solver)
    (hact : ∀ v, 1 ≤ v → v ≤ s.f.n_vars → 0 ≤ s.var_act.getD v 0)
    (h0 : pick_branch_var s = 0) : unassigned_count s = 0 := by
  have h := pick_scan_invariant s hact s.f.n_vars (Nat.le_refl _) _ rfl
  unfold pick_branch_var at h0
  generalize (List.range s.f.n_vars).foldl
      (fun (acc : Nat × ℚ) i =>
        if s.assign.getD (i + 1) 0 = 0 ∧ s.var_act.getD (i + 1) 0 > acc.2
        then (i + 1, s.var_act.getD (i + 1) 0) else acc) (0, -1) = acc at h h0
  rcases h with ⟨_, _, hall⟩ | ⟨hb1, _⟩
  · unfold unassigned_count
    rw [List.countP_eq_zero]
    intro i hi
    simp only [List.mem_range] at hi
    simp only [decide_eq_true_eq]
    exact hall (i + 1) (by omega) (by omega)
  · omega

/-- With more unassigned variables than free cells of the decision stack, the
search loop on a settled state with short watch lists reaches the push past the
last cell: no fuel gives a verdict. -/
theorem cdcl_loop_overruns (pfuel : Nat) :
    ∀ (fuel : Nat) (s : Solver), Settled s → ShortLists s →
      (∀ v, 1 ≤ v → v ≤ s.f.n_vars → 0 ≤ s.var_act.getD v 0) →
      s.dl_stack.length ≤ dl_stack_cap →
      dl_stack_cap < s.dl_stack.length + unassigned_count s →
      cdcl_loop pfuel fuel s = none := by
  intro fuel
  induction fuel with
  | zero => intro s _ _ _ _ _; rfl
  | succ fuel ih =>
    intro s hs hsl hact hle hover
    rw [cdcl_loop]
    rcases pick_branch_var_spec s with h0 | ⟨hv1, hvn, hcur⟩
    · have := unassigned_count_zero_of_pick s hact h0
      omega
    · have hv0 : pick_branch_var s ≠ 0 := by omega
      by_cases hcap : dl_stack_cap ≤ s.dl_stack.length
      · simp only [hv0, if_false, hcap, if_true]
      · have hs0 := settled_dl_stack s hs (s.dl_stack ++ [s.trail.length])
        have hsl0 := short_lists_dl_stack s hsl (s.dl_stack ++ [s.trail.length])
        obtain ⟨hok, hs1, hcnt⟩ := enqueue_lit_settled _ hs0 (branch_lit s (pick_branch_var s))
          (branch_lit_ne_zero s _ hv1) (by rw [lit_var_branch_lit]; exact hvn)
          (by rw [lit_var_branch_lit]; exact hcur)
        have hsl1 := enqueue_lit_short_lists _ (branch_lit s (pick_branch_var s)) hsl0
        have hf : (enqueue_lit { s with dl_stack := s.dl_stack ++ [s.trail.length] }
            (branch_lit s (pick_branch_var s))).2.f = s.f := by rw [enqueue_lit_f]
        have hdl : (enqueue_lit { s with dl_stack := s.dl_stack ++ [s.trail.length] }
            (branch_lit s (pick_branch_var s))).2.dl_stack.length = s.dl_stack.length + 1 := by
          rw [enqueue_lit_dl_stack]; simp
        have hact1 : ∀ v, 1 ≤ v →
            v ≤ (enqueue_lit { s with dl_stack := s.dl_stack ++ [s.trail.length] }
              (branch_lit s (pick_branch_var s))).2.f.n_vars →
            0 ≤ (enqueue_lit { s with dl_stack := s.dl_stack ++ [s.trail.length] }
              (branch_lit s (pick_branch_var s))).2.var_act.getD v 0 := by
          intro v h1 h2
          rw [hf] at h2
          rw [enqueue_lit_var_act]
          exact hact v h1 h2
        have hu0 : unassigned_count { s with dl_stack := s.dl_stack ++ [s.trail.length] } =
            unassigned_count s := rfl
        rcases unit_propagation_simd_settled_or_none _ hs1 hsl1 pfuel with hn | hsome
        · simp only [hv0, if_false, hcap, hok, if_true, hn]
        · simp only [hv0, if_false, hcap, hok, if_true, hsome]
          exact ih _ hs1 hsl1 hact1 (by omega) (by omega)

theorem cdcl_solve_overruns (s : Solver) (hs : Settled s) (hsl : ShortLists s)
    (hact : ∀ v, 1 ≤ v → v ≤ s.f.n_vars → 0 ≤ s.var_act.getD v 0)
    (hle : s.dl_stack.length ≤ dl_stack_cap)
    (hover : dl_stack_cap < s.dl_stack.length + unassigned_count s) (fuel : Nat) :
    cdcl_solve fuel s = none := by
  unfold cdcl_solve
  rcases unit_propagation_simd_settled_or_none s hs hsl fuel with hn | hsome
  · rw [hn]
  · rw [hsome]
    exact cdcl_loop_overruns fuel fuel s hs hsl hact hle hover

theorem solver_new_short_lists (f : Formula) : ShortLists (solver_new f) := by
  intro l
  unfold watch_list solver_new stride
  split <;> simp [List.getD_eq_getElem?_getD, List.getElem?_replicate] <;> split <;> simp

theorem solver_new_var_act (f : Formula) (v : Nat) : 0 ≤ (solver_new f).var_act.getD v 0 := by
  simp only [solver_new, List.getD_eq_getElem?_getD, List.getElem?_replicate]
  split <;> simp

theorem solver_new_unassigned_count (f : Formula) : unassigned_count (solver_new f) = f.n_vars := by
  have h := (solver_new_settled f).count
  have h1 : (solver_new f).trail.length = 0 := rfl
  have h2 : (solver_new f).f.n_vars = f.n_vars := rfl
  omega

/-- On a formula without clauses over more variables than the decision stack
has cells, `cdcl_solve` has no verdict, whatever the fuel. -/
theorem cdcl_solve_overruns_without_clauses (n : Nat) (hn : dl_stack_cap < n) (fuel : Nat) :
    cdcl_solve fuel (solver_new (parse_formula n [])) = none :=
  cdcl_solve_overruns _ (solver_new_settled _) (solver_new_short_lists _)
    (fun v _ _ => solver_new_var_act _ v) (Nat.zero_le _)
    (by rw [solver_new_unassigned_count]; show dl_stack_cap < 0 + n; omega) fuel

theorem solver_init_without_clauses (n : Nat) :
    solver_init (parse_formula n []) = some (solver_new (parse_formula n [])) := rfl

/-- On the state after the first decision on `formula_eight_watchers` the
propagation has no result, whatever the fuel: with no fuel there is none, and
with some the scan of the first trail literal is the one with eight entries. -/
theorem unit_propagation_eight_watchers (fuel : Nat) :
    unit_propagation_simd fuel state_eight_watchers = none := by
  cases fuel <;> rfl

theorem solver_init_eight_watchers :
    solver_init formula_eight_watchers = some init_eight_watchers := rfl

theorem init_eight_watchers_settled : Settled init_eight_watchers :=
  (solver_init_settled formula_eight_watchers (by decide) _ solver_init_eight_watchers).1

theorem state_eight_watchers_settled : Settled state_eight_watchers :=
  (enqueue_lit_settled _ (settled_dl_stack _ init_eight_watchers_settled [0]) 1
    (by decide) (by decide) (by decide)).2.1

/-- Whatever the fuel, `cdcl_solve` has no verdict on the state set up for
`formula_eight_watchers`: the propagation after the first decision scans the
list of eight entries. -/
theorem cdcl_solve_eight_watchers (fuel : Nat) :
    cdcl_solve fuel init_eight_watchers = none := by
  cases fuel <;> rfl

/-- Within the bounds of both buffers the two searches agree: each returns
`true`. -/
theorem dpll_cdcl_agree_within_bounds (s : Solver) (hs : Settled s) (hsl : ShortLists s)
    (fuel : Nat) (h : s.f.n_vars < fuel)
    (hcap : s.dl_stack.length + unassigned_count s ≤ dl_stack_cap) :
    (∃ s1, cdcl_solve fuel s = some (true, s1)) ∧ ∃ s2, dpll_solve fuel s = some (true, s2) :=
  ⟨cdcl_solve_settled s hs hsl fuel h hcap, dpll_solve_settled s hs hsl fuel h⟩

/-- C10 fails on `p cnf 5000 0`. On the state set up for five thousand
variables and no clause, `dpll_solve` returns `true`, while `cdcl_solve` pushes
a decision level for each variable it branches on and, at the branch after the
4096th, writes past the last cell of `dl_stack`: whatever the fuel it has no
verdict to set against the one of `dpll_solve`. -/
theorem dpll_verdict_without_cdcl_verdict :
    solver_init formula_many_vars = some (solver_new formula_many_vars) ∧
    (∃ s1, dpll_solve 5001 (solver_new formula_many_vars) = some (true, s1)) ∧
    ∀ fuel, cdcl_solve fuel (solver_new formula_many_vars) = none :=
  ⟨rfl,
   dpll_solve_settled _ (solver_new_settled _) (solver_new_short_lists _) 5001
     (Nat.lt_succ_self 5000),
   cdcl_solve_overruns_without_clauses 5000 (by decide)⟩

/-- C12 fails on two initialised states. On the state set up for
`p cnf 5000 0` the search loop branches once per variable and its 4097th push
goes past the last cell of `dl_stack`; on the state set up for
`(1 2) (1 3) (1 4) (1 5) (1 6) (1 7) (1 8) (1 9)` the propagation after the
first decision scans a watch list of eight entries and stores past the eight
cells of `wps`. On neither does `cdcl_solve` return a verdict, whatever the
fuel. -/
theorem cdcl_solve_without_verdict :
    (solver_init formula_many_vars = some (solver_new formula_many_vars) ∧
      dl_stack_cap < formula_many_vars.n_vars ∧
      ∀ fuel, cdcl_solve fuel (solver_new formula_many_vars) = none) ∧
    (solver_init formula_eight_watchers = some init_eight_watchers ∧
      stride ≤ (watch_list init_eight_watchers 1).length ∧
      ∀ fuel, cdcl_solve fuel init_eight_watchers = none) :=
  ⟨⟨rfl, by decide, cdcl_solve_overruns_without_clauses 5000 (by decide)⟩,
   ⟨rfl, by decide, cdcl_solve_eight_watchers⟩⟩

/-- C14 fails on a watch list of eight entries. The state
`state_eight_watchers` is the one the search on
`(1 2) (1 3) (1 4) (1 5) (1 6) (1 7) (1 8) (1 9)` is in after its first
decision. Every literal on its trail is true and every entry of the watch list
keyed by a literal points at that literal. The list scanned for the trail
literal `1` has `stride` entries, so the scan enters the batch loop and stores
past the eight cells of `wps`: `watch_scan_update_simd` has no defined result
and `unit_propagation_simd` returns nothing, whatever the fuel. -/
theorem propagation_undefined_on_long_list :
    solver_init formula_eight_watchers = some init_eight_watchers ∧
    (enqueue_lit
      { init_eight_watchers with
        dl_stack := init_eight_watchers.dl_stack ++ [init_eight_watchers.trail.length] }
      (branch_lit init_eight_watchers (pick_branch_var init_eight_watchers))).2 =
        state_eight_watchers ∧
    (∀ l ∈ state_eight_watchers.trail, lit_value state_eight_watchers.assign l = 1) ∧
    (∀ l, ∀ e ∈ watch_list state_eight_watchers l, entry_lit state_eight_watchers e = l) ∧
    stride ≤ (watch_list state_eight_watchers 1).length ∧
    watch_scan_update_simd state_eight_watchers 1 = none ∧
    ∀ fuel, unit_propagation_simd fuel state_eight_watchers = none :=
  ⟨rfl, rfl, by decide, watch_list_entry_lit _ state_eight_watchers_settled, by decide, rfl,
   unit_propagation_eight_watchers⟩

/-- C15 fails on two formulas that are well formed, hold no clause of size `0`
and no two unit clauses on complementary literals:
`(1 2) (1 3) (1 4) (1 5) (1 6) (1 7) (1 8) (1 9)`, on which the first
propagation of the search scans a watch list of eight entries and stores past
the eight cells of `wps`, and `p cnf 5000 0`, on which the search pushes past
the last cell of `dl_stack`. On neither does `solve_cnf_dimacs` return `true`:
it has no verdict, whatever the fuel. -/
theorem solve_without_verdict_when_not_blocked :
    (WellFormed formula_eight_watchers ∧
      (∀ c ∈ formula_eight_watchers.clauses, c.lits ≠ []) ∧
      NoComplementaryUnits formula_eight_watchers ∧
      ∀ fuel, solve_cnf_dimacs fuel formula_eight_watchers = none) ∧
    (WellFormed formula_many_vars ∧
      (∀ c ∈ formula_many_vars.clauses, c.lits ≠ []) ∧
      NoComplementaryUnits formula_many_vars ∧
      ∀ fuel, solve_cnf_dimacs fuel formula_many_vars = none) :=
  ⟨⟨by decide, by decide,
    by simp [NoComplementaryUnits, formula_eight_watchers, parse_formula, parse_clause],
    fun fuel => by
      unfold solve_cnf_dimacs
      rw [solver_init_eight_watchers]
      show (cdcl_solve fuel init_eight_watchers).map Prod.fst = none
      rw [cdcl_solve_eight_watchers fuel]
      rfl⟩,
   ⟨by decide, by decide,
    by simp [NoComplementaryUnits, formula_many_vars, parse_formula],
    fun fuel => by
      unfold solve_cnf_dimacs
      rw [show solver_init formula_many_vars = some (solver_new formula_many_vars) from rfl]
      show (cdcl_solve fuel (solver_new formula_many_vars)).map Prod.fst = none
      rw [show cdcl_solve fuel (solver_new formula_many_vars) = none from
        cdcl_solve_overruns_without_clauses 5000 (by decide) fuel]
      rfl⟩⟩

end SatSolver
